import Mathlib

/-!
Verification of the litegraph dataflow-graph engine.

This file gives a shallow embedding of the engine's source
(src/core/graph.js, src/shader_nodes/3param_node.js,
src/shader_lib/piece/3param_func.js) and proves the specified properties
about it.  JavaScript arrays become Lean lists, objects used as maps
become association lists keyed as in the source, numbers used as ids
become Int (so the sentinel -1 is representable), and code that can
throw returns an explicit outcome.  Classes whose code is not part of
the three source files (the CodePiece library, the node base class) are
modelled from the specification and are marked as such in their doc
comments.
-/

set_option maxHeartbeats 1000000

/-! ## Shader-library embedding (3param_func.js, 3param_node.js) -/

/-- Modelled from the spec: the scope constants CodePiece.VERTEX,
CodePiece.FRAGMENT and CodePiece.BOTH of the CodePiece class (the
CodePiece source file is not part of src/; section 4.4 of the spec
describes the three scopes "vertex" or "fragment" or "both"). -/
inductive CPScope where
  | vertex
  | fragment
  | both
deriving DecidableEq, Repr

/-- Modelled from the spec: a CodePiece is "a mergeable unit of generated
code (body text + include set)" with an order field (spec sections 2 and 3:
body: text, includes: mapping name to snippet, order: integer).  The class
itself lives outside src/. -/
structure CodePiece where
  body : String
  includes : List (String × String)
  order : Int
deriving DecidableEq, Repr

/-- Modelled from the spec: a fresh CodePiece as produced by
the constructor invoked in P3ParamFunc.getCode, before setBody and
setIncludes run. -/
def CodePiece.new : CodePiece := { body := "", includes := [], order := 0 }

/-- Modelled from the spec: CodePiece.setBody (CodePiece class outside src/). -/
def CodePiece.setBody (p : CodePiece) (b : String) : CodePiece := { p with body := b }

/-- Modelled from the spec: CodePiece.setIncludes (CodePiece class outside src/). -/
def CodePiece.setIncludes (p : CodePiece) (inc : List (String × String)) : CodePiece :=
  { p with includes := inc }

/-- Insert a key/value pair into an association list, replacing the entry
with the same key in place when one exists ("last writer for a given key
wins") and appending otherwise. -/
def upsertInclude : List (String × String) → String × String → List (String × String)
  | [], kv => [kv]
  | p :: rest, kv => if p.1 = kv.1 then kv :: rest else p :: upsertInclude rest kv

/-- Modelled from the spec (section 4.4): CodePiece.merge "unions includes
(key-deduplicated; last writer for a given key wins, no error on collision)
and concatenates body text, ordering the two bodies by their order field
(lower order emitted first) rather than by call sequence", mutating the
receiver. -/
def CodePiece.merge (self other : CodePiece) : CodePiece :=
  { self with
    body := if other.order < self.order then other.body ++ self.body else self.body ++ other.body,
    includes := other.includes.foldl upsertInclude self.includes }

/-- Modelled from the spec: the ShaderCode value built by
P3ParamFunc.getCode via "return new ShaderCode(vertex, fragment, out_var)":
one CodePiece for the vertex stage, one for the fragment stage, and the
output-variable identifier; processInputCode later stamps an order on it
and merges other ShaderCode values into it stage by stage. -/
structure ShaderCode where
  vertex : CodePiece
  fragment : CodePiece
  out_var : String
  order : Int
deriving DecidableEq, Repr

/-- Modelled from the spec: getOutputVar of a code result (the upstream
pieces' "output-variable identifiers" used as composer arguments). -/
def ShaderCode.getOutputVar (sc : ShaderCode) : String := sc.out_var

/-- Modelled from the spec: merging two ShaderCode values merges the two
stage pieces pairwise with CodePiece.merge. -/
def ShaderCode.merge (self other : ShaderCode) : ShaderCode :=
  { self with
    vertex := self.vertex.merge other.vertex,
    fragment := self.fragment.merge other.fragment }

/-- The JavaScript expression (out_type || this.type): a present non-empty
string is kept, while undefined and the empty string (both falsy) fall
through to the second operand. -/
def jsOrStr (a b : Option String) : Option String :=
  match a with
  | some s => if s = "" then b else some s
  | none => b

/-- JavaScript string coercion of a possibly-undefined value used in string
concatenation: undefined prints as "undefined". -/
def strCoe : Option String → String
  | some s => s
  | none => "undefined"

/-- P3ParamFunc (3param_func.js lines 6-11): object representing a glsl
3-parameter function; type is undefined for generic ("T") functions. -/
structure P3ParamFunc where
  type : Option String
  name : String
  id : String
  includes : List (String × String)
deriving DecidableEq, Repr

/-- The P3ParamFunc constructor (3param_func.js lines 6-11). -/
def P3ParamFunc.make (type : Option String) (name : String) : P3ParamFunc :=
  { type := type, name := name, id := "3paramfunc", includes := [] }

/-- P3ParamFunc.prototype.getVertexCode (3param_func.js lines 13-19). -/
def P3ParamFunc.getVertexCode (f : P3ParamFunc) (out_var a b c : String)
    (scope : CPScope) (out_type : Option String) : String :=
  if scope = CPScope.vertex ∨ scope = CPScope.both then
    strCoe (jsOrStr out_type f.type) ++ " " ++ out_var ++ " = " ++ f.name ++
      "(" ++ a ++ "," ++ b ++ "," ++ c ++ ");\n"
  else ""

/-- P3ParamFunc.prototype.getFragmentCode (3param_func.js lines 21-27). -/
def P3ParamFunc.getFragmentCode (f : P3ParamFunc) (out_var a b c : String)
    (scope : CPScope) (out_type : Option String) : String :=
  if scope = CPScope.fragment ∨ scope = CPScope.both then
    strCoe (jsOrStr out_type f.type) ++ " " ++ out_var ++ " = " ++ f.name ++
      "(" ++ a ++ "," ++ b ++ "," ++ c ++ ");\n"
  else ""

/-- P3ParamFunc.prototype.getCode (3param_func.js lines 37-47): builds the
vertex piece and the fragment piece and wraps them in a ShaderCode. -/
def P3ParamFunc.getCode (f : P3ParamFunc) (out_var a b c : String)
    (scope : CPScope) (out_type : Option String) : ShaderCode :=
  let vertex := (CodePiece.new.setBody (f.getVertexCode out_var a b c scope out_type)).setIncludes f.includes
  let fragment := (CodePiece.new.setBody (f.getFragmentCode out_var a b c scope out_type)).setIncludes f.includes
  { vertex := vertex, fragment := fragment, out_var := out_var, order := 0 }

/-- LiteGraph.CodeLib entry "distance" (3param_func.js line 51). -/
def CodeLib_distance : P3ParamFunc := P3ParamFunc.make (some "float") "distance"

/-- LiteGraph.CodeLib entry "refract" (3param_func.js line 52); undefined means T. -/
def CodeLib_refract : P3ParamFunc := P3ParamFunc.make none "refract"

/-- LiteGraph.CodeLib entry "mix" (3param_func.js line 53); undefined means T. -/
def CodeLib_mix : P3ParamFunc := P3ParamFunc.make none "mix"

/-- The result of processInputCode: either the sentinel LiteGraph.EMPTY_CODE
(modelled from the spec: "the result is the sentinel empty code (not an
error)", the sentinel object itself lives outside src/) or a ShaderCode. -/
inductive OutputCode where
  | emptyCode
  | shader (sc : ShaderCode)
deriving DecidableEq, Repr

/-- State of an LGraph3ParamNode (3param_node.js) relevant to
processInputCode.  The connection state reached through the node base
class (which is outside src/) is modelled from the spec: inputCodes i is
what this.getInputCode(i) returns, the upstream CodePiece-bearing result
or null when the input is disconnected, and nullCodes i is what
this.onGetNullCode(i) returns, the node-supplied fallback factory result
or null when no fallback is registered.  output_type_key models
getOutputType (3param_node.js lines 71-75), the first key of the node's
output-type object, absent when that object is empty. -/
structure ParamNode where
  id : Int
  order : Int
  code_name : String
  shader_piece : P3ParamFunc
  inputCodes : List (Option ShaderCode)
  nullCodes : List (Option ShaderCode)
  output_type_key : Option String
  codes0 : Option OutputCode
deriving DecidableEq, Repr

/-- Modelled from the spec: this.getInputCode(i) (node base class outside
src/): the upstream code result for input slot i, null when disconnected. -/
def ParamNode.getInputCode (n : ParamNode) (i : Nat) : Option ShaderCode :=
  (n.inputCodes.get? i).join

/-- Modelled from the spec: this.onGetNullCode(i) (node base class outside
src/): the "node-supplied fallback factory for a null code default", null
when no fallback is registered for slot i. -/
def ParamNode.onGetNullCode (n : ParamNode) (i : Nat) : Option ShaderCode :=
  (n.nullCodes.get? i).join

/-- LGraph3ParamNode.prototype.getScope (3param_node.js lines 77-80):
returns CodePiece.FRAGMENT unconditionally. -/
def ParamNode.getScope (_ : ParamNode) : CPScope := CPScope.fragment

/-- LGraph3ParamNode.prototype.getOutputType (3param_node.js lines 71-75):
Object.keys(obj)[0], undefined when the type object has no keys. -/
def ParamNode.getOutputType (n : ParamNode) : Option String := n.output_type_key

/-- LGraph3ParamNode.prototype.getCodeName (3param_node.js lines 82-85). -/
def ParamNode.getCodeName (n : ParamNode) : String := n.code_name

/-- LGraph3ParamNode.prototype.processInputCode (3param_node.js lines
20-48).  Returns the final value of the local variable output_code
together with the node state (this.codes mutates in the success branch).
Each code_X is getInputCode(i) with the onGetNullCode(i) fallback
(JavaScript or-else on null); the composer runs only when all three are
present, stamps this.order on the result and merges C, then A, then B. -/
def ParamNode.processInputCode (n : ParamNode) : OutputCode × ParamNode :=
  let code_A := (n.getInputCode 0).or (n.onGetNullCode 0)
  let code_B := (n.getInputCode 1).or (n.onGetNullCode 1)
  let code_C := (n.getInputCode 2).or (n.onGetNullCode 2)
  match code_A, code_B, code_C with
  | some a, some b, some c =>
    let oc := n.shader_piece.getCode (n.getCodeName ++ "_" ++ toString n.id)
      a.getOutputVar b.getOutputVar c.getOutputVar n.getScope n.getOutputType
    let oc := { oc with order := n.order }
    let oc := oc.merge c
    let oc := oc.merge a
    let oc := oc.merge b
    (OutputCode.shader oc, { n with codes0 := some (OutputCode.shader oc) })
  | _, _, _ => (OutputCode.emptyCode, n)

/-! ## Graph data model (graph.js) -/

/-- A value stored in a node or a global slot; stands for an arbitrary
JavaScript value where the engine treats it opaquely. -/
inductive JsValue where
  | num (n : Int)
  | str (s : String)
  | boolean (b : Bool)
  | null
deriving DecidableEq, Repr

/-- A link (graph.js data model): entry of the this.links map.  Node ids
are Int (the unassigned sentinel is -1), link ids are Nat. -/
structure LGLink where
  id : Nat
  origin_id : Int
  origin_slot : Nat
  target_id : Int
  target_slot : Nat
deriving DecidableEq, Repr

/-- A node as far as graph.js reads it: input slots hold at most one link
id (slot.link), output slots hold a list of link ids (slot.links).
onExecute models the optional lifecycle callback dispatched by
sendEventToAllNodes("onExecute"): none when the node has no such property,
some true when invoking it throws, some false when it returns normally. -/
structure LGNode where
  id : Int
  order : Int
  title : String
  inputs : List (Option Nat)
  outputs : List (List Nat)
  ignore_remove : Bool
  onExecute : Option Bool
deriving DecidableEq, Repr

/-- A global input/output registry entry (graph.js addGlobalInput:
the object with name, type and value fields). -/
structure GlobalSlot where
  name : String
  type : String
  value : JsValue
deriving DecidableEq, Repr

/-- LGraph.STATUS_STOPPED (graph.js line 30). -/
def STATUS_STOPPED : Nat := 1

/-- LGraph.STATUS_RUNNING (graph.js line 31). -/
def STATUS_RUNNING : Nat := 2

/-- The LGraph state (graph.js clear, lines 38-76), restricted to the
fields the engine itself reads and writes.  The objects this._nodes_by_id,
this.links, this.global_inputs and this.global_outputs are association
lists; _nodes_in_order is undefined (none) until updateExecutionOrder
first runs.  Times are exact rationals where the source uses floating
point numbers. -/
structure LGraph where
  status : Nat
  last_node_id : Int
  _nodes : List LGNode
  _nodes_by_id : List (Int × LGNode)
  last_link_id : Nat
  links : List LGLink
  iteration : Nat
  globaltime : ℚ
  fixedtime : ℚ
  fixedtime_lapse : ℚ
  elapsed_time : ℚ
  starttime : Int
  global_inputs : List GlobalSlot
  global_outputs : List GlobalSlot
  errors_in_execution : Bool
  _nodes_in_order : Option (List LGNode)
  execution_timer_id : Option Nat
deriving DecidableEq, Repr

/-- The ambient LiteGraph globals read by graph.js but defined in the
library core outside src/: MAX_NUMBER_OF_NODES (the configured maximum,
spec: "node count exceeds configured maximum") and throw_errors (the
strict/lenient switch read in runStep). -/
structure LiteGraphConfig where
  MAX_NUMBER_OF_NODES : Nat
  throw_errors : Bool
deriving DecidableEq, Repr

/-- The graph state right after this.clear() (graph.js lines 38-76). -/
def LGraph.empty : LGraph :=
  { status := STATUS_STOPPED
    last_node_id := 0
    _nodes := []
    _nodes_by_id := []
    last_link_id := 0
    links := []
    iteration := 0
    globaltime := 0
    fixedtime := 0
    fixedtime_lapse := 1 / 100
    elapsed_time := 1 / 100
    starttime := 0
    global_inputs := []
    global_outputs := []
    errors_in_execution := false
    _nodes_in_order := none
    execution_timer_id := none }

/-- Lookup in the this._nodes_by_id object. -/
def byIdLookup (m : List (Int × LGNode)) (i : Int) : Option LGNode :=
  (m.find? (fun p => p.1 == i)).map (fun p => p.2)

/-- Store into the this._nodes_by_id object: an existing key is
overwritten in place, a new key is appended. -/
def byIdStore : List (Int × LGNode) → Int → LGNode → List (Int × LGNode)
  | [], i, n => [(i, n)]
  | p :: rest, i, n => if p.1 = i then (i, n) :: rest else p :: byIdStore rest i n

/-- LGraph.prototype.getNodeById (graph.js lines 486-490): a map miss is
undefined, which the callers treat like null (modelled as none). -/
def LGraph.getNodeById (g : LGraph) (i : Int) : Option LGNode :=
  byIdLookup g._nodes_by_id i

/-- Lookup in the this.links map.  The map is keyed by link id, so it is
modelled as the list of its values searched by the id field. -/
def linkLookup (links : List LGLink) (lid : Nat) : Option LGLink :=
  links.find? (fun l => l.id == lid)

/-- LGraph.prototype.findNodesByType (graph.js lines 500-507), with the
node type not modelled; kept for reference only via the method table. -/
def lgraphPrototypeMethods : List String :=
  [ "getSupportedTypes", "clear", "attachCanvas", "detachCanvas", "start", "stop",
    "runStep", "updateExecutionOrder", "computeExecutionOrder", "getTime",
    "getFixedTime", "getElapsedTime", "sendEventToAllNodes", "sendActionToCanvas",
    "add", "remove", "getNodeById", "findNodesByType", "findNodesByTitle",
    "getNodeOnPos", "addGlobalInput", "setGlobalInputData", "getGlobalInputData",
    "renameGlobalInput", "changeGlobalInputType", "removeGlobalInput",
    "addGlobalOutput", "setGlobalOutputData", "getGlobalOutputData",
    "renameGlobalOutput", "changeGlobalOutputType", "removeGlobalOutput",
    "setInputData", "getOutputData", "triggerInput", "setCallback",
    "onConnectionChange", "isLive", "change", "setDirtyCanvas", "serialize",
    "configure", "onNodeTrace" ]

/-- LGraph.prototype.findNodesByTitle (graph.js lines 516-523). -/
def LGraph.findNodesByTitle (g : LGraph) (title : String) : List LGNode :=
  g._nodes.filter (fun n => n.title == title)

/-! ## Execution order resolver (computeExecutionOrder, graph.js 216-299) -/

/-- The number of connected input links of a node: the loop at graph.js
lines 230-234 counting the input slots whose link field is not null. -/
def connectedInputCount (n : LGNode) : Nat :=
  (n.inputs.filter Option.isSome).length

/-- The connected input slots of a node as (slot index, link id) pairs;
used only to state graph well-formedness decidably. -/
def connectedInputSlots (n : LGNode) : List (Nat × Nat) :=
  n.inputs.enum.filterMap (fun p => p.2.map (fun lid => (p.1, lid)))

/-- State of the computeExecutionOrder algorithm: L is the ordered result
being built, S the FIFO queue of ready nodes, M the pending-nodes object
(keyed by node id, kept as its value list in insertion order), visited the
set of already visited link ids, and remaining the remaining-input-link
counters keyed by node id. -/
structure KState where
  L : List LGNode
  S : List LGNode
  M : List LGNode
  visited : List Nat
  remaining : List (Int × Int)
deriving DecidableEq, Repr

/-- Store into the M object: M(n.id) = n overwrites an entry with the same
key in place and appends a fresh key. -/
def mInsert : List LGNode → LGNode → List LGNode
  | [], n => [n]
  | m :: rest, n => if m.id = n.id then n :: rest else m :: mInsert rest n

/-- Lookup in the remaining_links object. -/
def remLookup (r : List (Int × Int)) (i : Int) : Option Int :=
  (r.find? (fun p => p.1 == i)).map (fun p => p.2)

/-- Store into the remaining_links object: an existing key is overwritten
in place, a new key is appended. -/
def remStore : List (Int × Int) → Int → Int → List (Int × Int)
  | [], i, v => [(i, v)]
  | p :: rest, i, v => if p.1 = i then (i, v) :: rest else p :: remStore rest i v

/-- One iteration of the seeding pass of computeExecutionOrder (graph.js
lines 225-240): the node joins M; a node with no connected inputs joins S,
any other node gets its connected-input count stored in remaining_links. -/
def initStep (st : KState) (n : LGNode) : KState :=
  let st := { st with M := mInsert st.M n }
  if connectedInputCount n = 0 then { st with S := st.S ++ [n] }
  else { st with remaining := remStore st.remaining n.id (connectedInputCount n) }

/-- The seeding pass of computeExecutionOrder (graph.js lines 225-240)
over every node of the graph. -/
def initKahn (g : LGraph) : KState :=
  g._nodes.foldl initStep { L := [], S := [], M := [], visited := [], remaining := [] }

/-- Processing of one link id from an output slot (graph.js lines 262-283):
skip a link id missing from the links map; skip an already visited link;
mark the link visited; resolve the target via getNodeById (marking visited
and skipping when the target is gone); decrement the target's
remaining_links counter, enqueueing the target when it reaches zero.
When the counter key is absent JavaScript stores NaN, which never compares
equal to 0, so no enqueue can ever happen for that key; this is modelled
by leaving the absent key absent. -/
def processLink (g : LGraph) (st : KState) (lid : Nat) : KState :=
  match linkLookup g.links lid with
  | none => st
  | some link =>
    if link.id ∈ st.visited then st
    else
      match g.getNodeById link.target_id with
      | none => { st with visited := link.id :: st.visited }
      | some target =>
        let st := { st with visited := link.id :: st.visited }
        match remLookup st.remaining target.id with
        | none => st
        | some v =>
          let st := { st with remaining := remStore st.remaining target.id (v - 1) }
          if v - 1 = 0 then { st with S := st.S ++ [target] } else st

/-- The two nested loops over a popped node's output slots and their link
lists (graph.js lines 252-284), as a single fold over the concatenation of
the slot lists (an empty or missing slot contributes nothing, matching the
continue at line 258). -/
def processNodeOutputs (g : LGraph) (st : KState) (n : LGNode) : KState :=
  n.outputs.flatten.foldl (processLink g) st

/-- One iteration of the while loop (graph.js lines 242-285): pop the head
of S, append it to L, delete its key from M, then process its outputs. -/
def kahnStep (g : LGraph) (st : KState) (n : LGNode) (rest : List LGNode) : KState :=
  processNodeOutputs g
    { st with S := rest, L := st.L ++ [n], M := st.M.filter (fun m => m.id != n.id) } n

/-- The while(true) loop of computeExecutionOrder, with explicit fuel.
The loop in the source terminates because every iteration pops one node
from S while nodes enter S at most once per visited link (plus the initial
seeds); kahnLoopFuel_S_nil below proves the fuel passed by
computeExecutionOrder always suffices, i.e. the fueled loop drains S
exactly as the source loop does. -/
def kahnLoopFuel (g : LGraph) : Nat → KState → KState
  | 0, st => st
  | fuel + 1, st =>
    match st.S with
    | [] => st
    | n :: rest => kahnLoopFuel g fuel (kahnStep g st n rest)

/-- Insertion of a node into a list sorted by ascending id. -/
def insertByIdSorted (n : LGNode) : List LGNode → List LGNode
  | [] => [n]
  | m :: rest => if n.id ≤ m.id then n :: m :: rest else m :: insertByIdSorted n rest

/-- Sort a node list by ascending id: the residual loop "for(var i in M)"
(graph.js lines 288-289) visits the object's remaining integer keys in
ascending numeric order, as JavaScript property enumeration prescribes. -/
def sortById : List LGNode → List LGNode
  | [] => []
  | m :: rest => insertByIdSorted m (sortById rest)

/-- The final order-assignment loop (graph.js lines 295-296): node at
position i of L receives order i. -/
def assignOrdersFrom (k : Nat) : List LGNode → List LGNode
  | [] => []
  | n :: rest => { n with order := (k : Int) } :: assignOrdersFrom (k + 1) rest

/-- The state in which the while loop of computeExecutionOrder ends: the
fueled loop run from the seeded state, with enough fuel to drain S (see
kahnFinal_S_nil). -/
def kahnFinal (g : LGraph) : KState :=
  let st := initKahn g
  kahnLoopFuel g (st.S.length + g.links.length + 1) st

/-- LGraph.prototype.computeExecutionOrder (graph.js lines 216-299):
seed, run the loop, append the residual (cycle) nodes still pending in M,
and assign order = position to every node of the result.  The list
returned holds the same node objects the graph owns, with their order
fields updated (in this embedding, updated copies).  The computation is a
total function: it raises no exception on any graph. -/
def LGraph.computeExecutionOrder (g : LGraph) : List LGNode :=
  assignOrdersFrom 0 ((kahnFinal g).L ++ sortById (kahnFinal g).M)

/-- Propagate the order fields computed for the listed nodes back into a
node object, keyed by id (the source mutates the shared node objects in
place). -/
def applyOrderFrom (ord : List LGNode) (n : LGNode) : LGNode :=
  match ord.find? (fun m => m.id == n.id) with
  | some m => { n with order := m.order }
  | none => n

/-- LGraph.prototype.updateExecutionOrder (graph.js lines 210-213): caches
the computed order in _nodes_in_order; the order fields mutated by
computeExecutionOrder are propagated to the node objects in both
containers. -/
def LGraph.updateExecutionOrder (g : LGraph) : LGraph :=
  let ord := g.computeExecutionOrder
  { g with
    _nodes_in_order := some ord
    _nodes := g._nodes.map (applyOrderFrom ord)
    _nodes_by_id := g._nodes_by_id.map (fun p => (p.1, applyOrderFrom ord p.2)) }

/-! ## Graph mutations (add, remove, graph.js 370-478) -/

/-- Outcome of an add call: silent no-op (graph.js line 373), an exception
(line 376) or a completed registration. -/
inductive AddOutcome where
  | noop
  | thrown
  | added
deriving DecidableEq, Repr

/-- Result of an add call: the graph state when the call returns or the
exception escapes, the node object (whose id the call may have assigned)
and the outcome. -/
structure AddResult where
  g : LGraph
  node : LGNode
  outcome : AddOutcome
deriving DecidableEq, Repr

/-- LGraph.prototype.add (graph.js lines 370-412), in source order: the
duplicate guard returns silently; a full graph throws
"LiteGraph: max number of nodes in a graph reached" before any mutation;
otherwise a node with unassigned id receives last_node_id which is then
incremented, the node is pushed into _nodes and stored in _nodes_by_id,
and unless skip_compute_order is set the execution order is recomputed.
The onAdded and onNodeAdded callbacks and the canvas notifications touch
no graph state modelled here. -/
def LGraph.add (cfg : LiteGraphConfig) (g : LGraph) (node : LGNode)
    (skip_compute_order : Bool) : AddResult :=
  if node.id != -1 && (byIdLookup g._nodes_by_id node.id).isSome then
    { g := g, node := node, outcome := AddOutcome.noop }
  else if g._nodes.length ≥ cfg.MAX_NUMBER_OF_NODES then
    { g := g, node := node, outcome := AddOutcome.thrown }
  else
    let (node, g) :=
      if node.id == -1 then
        ({ node with id := g.last_node_id }, { g with last_node_id := g.last_node_id + 1 })
      else (node, g)
    let g := { g with
      _nodes := g._nodes ++ [node]
      _nodes_by_id := byIdStore g._nodes_by_id node.id node }
    let g := if skip_compute_order then g else g.updateExecutionOrder
    { g := g, node := node, outcome := AddOutcome.added }

/-- Apply a mutation to the node object with the given id: the change is
visible through every container holding the object (_nodes and the values
of _nodes_by_id), modelling in-place mutation of the shared object. -/
def updateNodeObj (g : LGraph) (nid : Int) (f : LGNode → LGNode) : LGraph :=
  { g with
    _nodes := g._nodes.map (fun n => if n.id == nid then f n else n)
    _nodes_by_id := g._nodes_by_id.map (fun p => if p.2.id == nid then (p.1, f p.2) else p) }

/-- Delete a link id from the this.links map. -/
def removeLinkById (g : LGraph) (lid : Nat) : LGraph :=
  { g with links := g.links.filter (fun l => l.id != lid) }

/-- Modelled from the spec: LGraphNode.prototype.disconnectInput(i) (the
node base class is not part of src/).  Per the spec, a link "is destroyed
when either endpoint disconnects": the input slot's stored link id is
looked up in the links map, the link is deleted from the map, the input
slot is cleared, and the link id is removed from the origin node's output
slot. -/
def disconnectInput (g : LGraph) (nid : Int) (i : Nat) : LGraph :=
  match g._nodes.find? (fun n => n.id == nid) with
  | none => g
  | some n =>
    match n.inputs.get? i with
    | some (some lid) =>
      match linkLookup g.links lid with
      | some l =>
        let g := removeLinkById g lid
        let g := updateNodeObj g nid (fun m => { m with inputs := m.inputs.set i none })
        updateNodeObj g l.origin_id
          (fun m => { m with outputs := m.outputs.modify (fun s => s.filter (fun x => x != lid)) l.origin_slot })
      | none =>
        updateNodeObj g nid (fun m => { m with inputs := m.inputs.set i none })
    | _ => g

/-- Modelled from the spec: LGraphNode.prototype.disconnectOutput(i) with
no target argument (node base class outside src/).  Every link listed in
the output slot is destroyed: deleted from the links map and cleared from
its target node's input slot; finally the output slot's link list is
emptied. -/
def disconnectOutput (g : LGraph) (nid : Int) (i : Nat) : LGraph :=
  match g._nodes.find? (fun n => n.id == nid) with
  | none => g
  | some n =>
    match n.outputs.get? i with
    | some lids =>
      let g := lids.foldl
        (fun g lid =>
          match linkLookup g.links lid with
          | some l =>
            let g := removeLinkById g lid
            updateNodeObj g l.target_id
              (fun m => { m with inputs := m.inputs.set l.target_slot none })
          | none => g)
        g
      updateNodeObj g nid (fun m => { m with outputs := m.outputs.set i [] })
    | none => g

/-- LGraph.prototype.remove (graph.js lines 420-478), in source order: the
not-found and ignore_remove guards return silently; every connected input
slot of the node is disconnected, then every non-empty output slot; then
line 446 sets node.id = -1 on the shared object; the node object (whose id
is now -1) is spliced out of _nodes, and line 468 deletes
_nodes_by_id[node.id], i.e. the key -1; finally the execution order is
recomputed.  The input and output loops re-read the live node object each
iteration, as the source does through the mutated object. -/
def LGraph.remove (g : LGraph) (node : LGNode) : LGraph :=
  if (byIdLookup g._nodes_by_id node.id).isNone then g
  else if node.ignore_remove then g
  else
    let nid := node.id
    let g := (List.range node.inputs.length).foldl
      (fun g i =>
        match g._nodes.find? (fun n => n.id == nid) with
        | some n =>
          match n.inputs.get? i with
          | some (some _) => disconnectInput g nid i
          | _ => g
        | none => g)
      g
    let g := (List.range node.outputs.length).foldl
      (fun g i =>
        match g._nodes.find? (fun n => n.id == nid) with
        | some n =>
          match n.outputs.get? i with
          | some (_ :: _) => disconnectOutput g nid i
          | _ => g
        | none => g)
      g
    let g := updateNodeObj g nid (fun m => { m with id := -1 })
    let g := { g with _nodes := g._nodes.filter (fun m => m.id != -1) }
    let g := { g with _nodes_by_id := g._nodes_by_id.filter (fun p => p.1 != -1) }
    g.updateExecutionOrder

/-! ## Execution loop (start, stop, runStep, graph.js 117-202) -/

/-- LGraph.prototype.stop (graph.js lines 143-158): a no-op when already
stopped; otherwise sets the status to STOPPED and clears the timer.  The
onStopEvent hook and the "onStop" dispatch touch no state modelled here. -/
def LGraph.stop (g : LGraph) : LGraph :=
  if g.status == STATUS_STOPPED then g
  else { g with status := STATUS_STOPPED, execution_timer_id := none }

/-- The node list a dispatch iterates (graph.js line 345):
_nodes_in_order when an order has been computed, else _nodes. -/
def execList (g : LGraph) : List LGNode :=
  match g._nodes_in_order with
  | some l => l
  | none => g._nodes

/-- The "onExecute" dispatch of sendEventToAllNodes (graph.js lines
343-349): nodes are visited in order, a node without the property is
skipped, and a callback that throws aborts the dispatch.  Returns true
when some callback threw. -/
def dispatchExecute : List LGNode → Bool
  | [] => false
  | n :: rest =>
    match n.onExecute with
    | some true => true
    | _ => dispatchExecute rest

/-- The body of the try block of runStep (graph.js lines 175-181) iterated
num times: each tick dispatches "onExecute" and advances fixedtime by
fixedtime_lapse; a throwing callback aborts the remaining ticks, returning
the state reached so far and the error flag.  The onExecuteStep hook
touches no state modelled here. -/
def runTicks (g : LGraph) : Nat → LGraph × Bool
  | 0 => (g, false)
  | k + 1 =>
    if dispatchExecute (execList g) then (g, true)
    else runTicks { g with fixedtime := g.fixedtime + g.fixedtime_lapse } k

/-- The timing epilogue after the try/catch of runStep (graph.js lines
197-201): elapsed is the wall-clock duration (floored to 1 to avoid a zero
division in derived rates), elapsed_time and globaltime are updated and
the iteration counter advances. -/
def runStepEpilogue (g : LGraph) (tstart tend : Int) : LGraph :=
  let elapsed : Int := tend - tstart
  let elapsed : Int := if elapsed == 0 then 1 else elapsed
  { g with
    elapsed_time := (elapsed : ℚ) / 1000
    globaltime := g.globaltime + (elapsed : ℚ) / 1000
    iteration := g.iteration + 1 }

/-- LGraph.prototype.runStep (graph.js lines 166-202).  tstart and tend
are the two LiteGraph.getTime() wall-clock readings (milliseconds).
Returns the resulting graph state and whether the call re-threw a node
error to its caller.  On success errors_in_execution is cleared; when a
lifecycle callback throws, the catch block sets errors_in_execution, then
either re-throws (LiteGraph.throw_errors, skipping the epilogue) or logs
and calls stop() before the epilogue runs. -/
def LGraph.runStep (cfg : LiteGraphConfig) (g : LGraph) (num : Nat)
    (tstart tend : Int) : LGraph × Bool :=
  let num := if num == 0 then 1 else num
  let g := { g with globaltime := ((tstart - g.starttime : Int) : ℚ) / 1000 }
  match runTicks g num with
  | (g, false) => (runStepEpilogue { g with errors_in_execution := false } tstart tend, false)
  | (g, true) =>
    let g := { g with errors_in_execution := true }
    if cfg.throw_errors then (g, true)
    else (runStepEpilogue g.stop tstart tend, false)

/-! ## Globals registries and name-keyed helpers (graph.js 549-756) -/

/-- Lookup in the this.global_inputs object. -/
def globalLookup (l : List GlobalSlot) (name : String) : Option GlobalSlot :=
  l.find? (fun s => s.name == name)

/-- LGraph.prototype.addGlobalInput (graph.js lines 549-558); the two
notification hooks touch no modelled state. -/
def LGraph.addGlobalInput (g : LGraph) (name type : String) (value : JsValue) : LGraph :=
  { g with global_inputs :=
      if g.global_inputs.any (fun s => s.name == name) then
        g.global_inputs.map (fun s => if s.name == name then ⟨name, type, value⟩ else s)
      else g.global_inputs ++ [⟨name, type, value⟩] }

/-- Mutate the value field of the entry object a name lookup finds: the
first entry with that name, every other entry untouched. -/
def setFirstGlobalValue : List GlobalSlot → String → JsValue → List GlobalSlot
  | [], _, _ => []
  | s :: rest, nm, d =>
    if s.name == nm then { s with value := d } :: rest
    else s :: setFirstGlobalValue rest nm d

/-- LGraph.prototype.setGlobalInputData (graph.js lines 561-567): a miss
returns with no mutation; a hit mutates the value field of the entry
object (the first entry with that name, the object the lookup found). -/
def LGraph.setGlobalInputData (g : LGraph) (name : String) (data : JsValue) : LGraph :=
  match globalLookup g.global_inputs name with
  | none => g
  | some _ =>
    { g with global_inputs := setFirstGlobalValue g.global_inputs name data }

/-- LGraph.prototype.getGlobalInputData (graph.js lines 570-576): null on
a miss, the entry's value on a hit. -/
def LGraph.getGlobalInputData (g : LGraph) (name : String) : Option JsValue :=
  match globalLookup g.global_inputs name with
  | none => none
  | some s => some s.value

/-- LGraph.prototype.setInputData (graph.js lines 720-725).  The body
evaluates this.findNodesByName(name); the LGraph prototype (its methods
are transcribed in lgraphPrototypeMethods) defines findNodesByTitle but no
findNodesByName, so in JavaScript the call throws a TypeError before any
node is touched.  The value argument is never consumed. -/
def LGraph.setInputData (g : LGraph) (_name : String) (_value : JsValue) : Except String LGraph :=
  if lgraphPrototypeMethods.contains "findNodesByName" then
    -- unreachable: the prototype has no findNodesByName method, so the
    -- broadcast loop over matching nodes never runs
    Except.ok g
  else Except.error "TypeError: this.findNodesByName is not a function"

/-! ## Operation traces (for id-allocation reasoning) -/

/-- A client-visible graph operation: attaching a detached node (the spec
lifecycle: "a Node is created detached (id = -1), attached via the graph's
add operation") or removing a node by the id of the live object passed to
remove. -/
inductive GraphOp where
  | addNode (n : LGNode) (skip : Bool)
  | removeNode (i : Int)
deriving Repr

/-- A graph together with the chronological list of ids its add operation
has assigned (assignment happens at graph.js line 380). -/
structure TraceState where
  g : LGraph
  assigned : List Int
deriving Repr

/-- Apply one operation: addNode attaches the node detached (id forced to
the unassigned sentinel -1, per the lifecycle above) and records the id
the graph assigned; removeNode passes the live node object with that id to
remove, a no-op when no such node is live. -/
def applyOp (cfg : LiteGraphConfig) (st : TraceState) (op : GraphOp) : TraceState :=
  match op with
  | GraphOp.addNode n skip =>
    let r := st.g.add cfg { n with id := -1 } skip
    match r.outcome with
    | AddOutcome.added => { g := r.g, assigned := st.assigned ++ [r.node.id] }
    | _ => { g := r.g, assigned := st.assigned }
  | GraphOp.removeNode i =>
    match st.g._nodes.find? (fun n => n.id == i) with
    | some n => { st with g := st.g.remove n }
    | none => st

/-- Run a sequence of operations from a freshly cleared graph. -/
def runOps (cfg : LiteGraphConfig) (ops : List GraphOp) : TraceState :=
  ops.foldl (applyOp cfg) { g := LGraph.empty, assigned := [] }

/-! ## Graph well-formedness and acyclicity -/

/-- The dependency edge relation on node ids induced by the links map:
a directed edge from the origin id to the target id of some link. -/
def edgeRel (g : LGraph) (a b : Int) : Prop :=
  ∃ l ∈ g.links, l.origin_id = a ∧ l.target_id = b

/-- Acyclicity of the link structure: no id reaches itself through a
non-empty chain of links. -/
def AcyclicGraph (g : LGraph) : Prop :=
  ∀ a : Int, ¬ Relation.TransGen (edgeRel g) a a

/-- The links of the graph that target the node id i. -/
def linksTo (g : LGraph) (i : Int) : List LGLink :=
  g.links.filter (fun l => l.target_id == i)

/-- The representation and slot/link consistency invariants of a graph
(spec section 3, Invariants): node and link ids are unique; _nodes_by_id
holds exactly the live nodes keyed by their ids; a connected input slot's
link id resolves to a link in the map targeting that exact slot; every
link's target and origin resolve to live nodes, the target's input slot
stores the link back, the link id is listed in the origin's output slots;
and every link id listed in an output slot that resolves in the map
belongs to a link originating at that node. -/
structure WellFormedGraph (g : LGraph) : Prop where
  nodup_node_ids : (g._nodes.map (fun n => n.id)).Nodup
  nodup_link_ids : (g.links.map (fun l => l.id)).Nodup
  byId_complete : ∀ n ∈ g._nodes, g.getNodeById n.id = some n
  byId_sound : ∀ p ∈ g._nodes_by_id, p.2 ∈ g._nodes ∧ p.2.id = p.1
  input_consistent : ∀ n ∈ g._nodes, ∀ p ∈ connectedInputSlots n,
    ∃ l ∈ g.links, l.id = p.2 ∧ l.target_id = n.id ∧ l.target_slot = p.1
  target_consistent : ∀ l ∈ g.links,
    ∃ t ∈ g._nodes, t.id = l.target_id ∧ t.inputs.get? l.target_slot = some (some l.id)
  origin_listed : ∀ l ∈ g.links,
    ∃ o ∈ g._nodes, o.id = l.origin_id ∧ ∃ s ∈ o.outputs, l.id ∈ s
  output_sound : ∀ n ∈ g._nodes, ∀ s ∈ n.outputs, ∀ lid ∈ s,
    ∀ l ∈ g.links, l.id = lid → l.origin_id = n.id

/-- A ranking certificate implies acyclicity: if some rank function
strictly increases along every link, no id can reach itself. -/
theorem acyclicGraph_of_rank (g : LGraph) (rank : Int → Nat)
    (h : ∀ l ∈ g.links, rank l.origin_id < rank l.target_id) : AcyclicGraph g := by
  intro a hcyc
  have mono : ∀ x y : Int, Relation.TransGen (edgeRel g) x y → rank x < rank y := by
    intro x y hxy
    induction hxy with
    | single hstep =>
      obtain ⟨l, hl, ho, ht⟩ := hstep
      subst ho; subst ht
      exact h l hl
    | tail _ hstep ih =>
      obtain ⟨l, hl, ho, ht⟩ := hstep
      subst ho; subst ht
      exact lt_trans ih (h l hl)
  exact lt_irrefl _ (mono a a hcyc)

/-! ## Claim C9: composer getCode scope and body -/

/-- A generated assignment line is never the empty string: it ends in the
three characters of the closing sequence. -/
theorem append_close_ne_empty (s : String) : s ++ ");\n" ≠ "" := by
  intro h
  have h2 := congrArg String.length h
  rw [String.length_append] at h2
  have h3 : (");\n").length = 3 := rfl
  rw [h3] at h2
  have h4 : ("" : String).length = 0 := rfl
  rw [h4] at h2
  omega

/-- C9: for the 3-parameter composer's getCode(out_var, a, b, c, scope,
out_type), the vertex-stage body is non-empty exactly when scope is VERTEX
or BOTH, the fragment-stage body is non-empty exactly when scope is
FRAGMENT or BOTH, and an emitted stage body is exactly the single
assignment "type out_var = name(a,b,c);" plus newline, with type the
provided out_type, else the composer's declared type. -/
theorem getCode_scope_and_body (f : P3ParamFunc) (out_var a b c : String)
    (scope : CPScope) (out_type : Option String) (dt : String)
    (hdt : f.type = some dt) (hot : out_type ≠ some "") :
    ((f.getCode out_var a b c scope out_type).vertex.body =
      if scope = CPScope.vertex ∨ scope = CPScope.both then
        out_type.getD dt ++ " " ++ out_var ++ " = " ++ f.name ++
          "(" ++ a ++ "," ++ b ++ "," ++ c ++ ");\n"
      else "") ∧
    ((f.getCode out_var a b c scope out_type).fragment.body =
      if scope = CPScope.fragment ∨ scope = CPScope.both then
        out_type.getD dt ++ " " ++ out_var ++ " = " ++ f.name ++
          "(" ++ a ++ "," ++ b ++ "," ++ c ++ ");\n"
      else "") ∧
    ((f.getCode out_var a b c scope out_type).vertex.body ≠ "" ↔
      (scope = CPScope.vertex ∨ scope = CPScope.both)) ∧
    ((f.getCode out_var a b c scope out_type).fragment.body ≠ "" ↔
      (scope = CPScope.fragment ∨ scope = CPScope.both)) := by
  have hty : strCoe (jsOrStr out_type f.type) = out_type.getD dt := by
    cases out_type with
    | none => simp [jsOrStr, hdt, strCoe]
    | some s =>
      have hs : s ≠ "" := fun h => hot (by rw [h])
      simp [jsOrStr, hs, strCoe]
  have hv : (f.getCode out_var a b c scope out_type).vertex.body =
      f.getVertexCode out_var a b c scope out_type := rfl
  have hf : (f.getCode out_var a b c scope out_type).fragment.body =
      f.getFragmentCode out_var a b c scope out_type := rfl
  rw [hv, hf]
  unfold P3ParamFunc.getVertexCode P3ParamFunc.getFragmentCode
  rw [hty]
  by_cases h1 : scope = CPScope.vertex ∨ scope = CPScope.both <;>
    by_cases h2 : scope = CPScope.fragment ∨ scope = CPScope.both <;>
      simp [h1, h2, append_close_ne_empty]

/-- Witness for C9 at a concrete composer: the CodeLib distance entry,
scope BOTH, with no runtime out_type. -/
theorem getCode_scope_and_body_witness :
    CodeLib_distance.type = some "float" ∧ (none : Option String) ≠ some "" ∧
    ((CodeLib_distance.getCode "v" "x" "y" "z" CPScope.both none).vertex.body =
      if CPScope.both = CPScope.vertex ∨ CPScope.both = CPScope.both then
        (none : Option String).getD "float" ++ " " ++ "v" ++ " = " ++ CodeLib_distance.name ++
          "(" ++ "x" ++ "," ++ "y" ++ "," ++ "z" ++ ");\n"
      else "") ∧
    ((CodeLib_distance.getCode "v" "x" "y" "z" CPScope.both none).vertex.body ≠ "" ↔
      (CPScope.both = CPScope.vertex ∨ CPScope.both = CPScope.both)) :=
  ⟨rfl, by decide,
    (getCode_scope_and_body CodeLib_distance "v" "x" "y" "z" CPScope.both none "float"
      rfl (by decide)).1,
    (getCode_scope_and_body CodeLib_distance "v" "x" "y" "z" CPScope.both none "float"
      rfl (by decide)).2.2.1⟩

/-! ## Claim C8: missing composer input yields the empty-code sentinel -/

/-- C8: for the 3-input composer node, if any of the three required code
inputs is absent (disconnected) and no fallback factory is registered for
it, processInputCode yields the empty-code sentinel (and, being a total
function, raises no exception). -/
theorem processInputCode_missing_input_empty (n : ParamNode) (i : Nat) (hi : i < 3)
    (hin : n.getInputCode i = none) (hnull : n.onGetNullCode i = none) :
    n.processInputCode.1 = OutputCode.emptyCode := by
  have h0 : i = 0 ∨ i = 1 ∨ i = 2 := by omega
  unfold ParamNode.processInputCode
  rcases h0 with rfl | rfl | rfl
  · rw [hin, hnull]
    cases (n.getInputCode 1).or (n.onGetNullCode 1) <;>
      cases (n.getInputCode 2).or (n.onGetNullCode 2) <;> rfl
  · rw [hin, hnull]
    cases (n.getInputCode 0).or (n.onGetNullCode 0) <;>
      cases (n.getInputCode 2).or (n.onGetNullCode 2) <;> rfl
  · rw [hin, hnull]
    cases (n.getInputCode 0).or (n.onGetNullCode 0) <;>
      cases (n.getInputCode 1).or (n.onGetNullCode 1) <;> rfl

/-- A concrete upstream code result used by the C8 witness. -/
def upstreamPiece : ShaderCode :=
  { vertex := CodePiece.new, fragment := CodePiece.new, out_var := "float_7", order := 0 }

/-- A concrete 3-input composer node with inputs A and B connected, C
disconnected, and no fallback registered for C (scenario 2). -/
def paramNodeAB : ParamNode :=
  { id := 9, order := 2, code_name := "mix", shader_piece := CodeLib_mix
    inputCodes := [some upstreamPiece, some upstreamPiece, none]
    nullCodes := [none, none, none]
    output_type_key := some "float", codes0 := none }

/-- Witness for C8: inputs A and B connected, C disconnected with no
fallback; the result is the empty-code sentinel. -/
theorem processInputCode_missing_input_empty_witness :
    (2 : Nat) < 3 ∧ paramNodeAB.getInputCode 2 = none ∧ paramNodeAB.onGetNullCode 2 = none ∧
    paramNodeAB.processInputCode.1 = OutputCode.emptyCode :=
  ⟨by decide, rfl, rfl,
    processInputCode_missing_input_empty paramNodeAB 2 (by decide) rfl rfl⟩

/-! ## Claim C10: global input registry safety -/

/-- A miss leaves the registry list untouched. -/
theorem setFirstGlobalValue_lookup_none (l : List GlobalSlot) (nm : String) (d : JsValue)
    (h : globalLookup l nm = none) : setFirstGlobalValue l nm d = l := by
  induction l with
  | nil => rfl
  | cons s rest ih =>
    by_cases hs : s.name == nm
    · exact absurd h (by simp [globalLookup, List.find?_cons, hs])
    · have hrest : globalLookup rest nm = none := by
        simpa [globalLookup, List.find?_cons, hs] using h
      simp [setFirstGlobalValue, hs, ih hrest]

/-- A hit mutates exactly the entry found: the registry decomposes around
the first entry with the name, and only its value field changes. -/
theorem setFirstGlobalValue_lookup_some (l : List GlobalSlot) (nm : String) (d : JsValue)
    (e : GlobalSlot) (h : globalLookup l nm = some e) :
    ∃ pre post, l = pre ++ e :: post ∧ (∀ s ∈ pre, s.name ≠ nm) ∧ e.name = nm ∧
      setFirstGlobalValue l nm d = pre ++ { e with value := d } :: post := by
  induction l with
  | nil => exact absurd h (by simp [globalLookup])
  | cons s rest ih =>
    by_cases hs : s.name == nm
    · have he : e = s := by
        have := h
        simp [globalLookup, List.find?_cons, hs] at this
        exact this.symm
      subst he
      exact ⟨[], rest, rfl, by simp, by simpa using hs, by simp [setFirstGlobalValue, hs]⟩
    · have hrest : globalLookup rest nm = some e := by
        simpa [globalLookup, List.find?_cons, hs] using h
      obtain ⟨pre, post, hl, hpre, he, hset⟩ := ih hrest
      refine ⟨s :: pre, post, by simp [hl], ?_, he, by simp [setFirstGlobalValue, hs, hset]⟩
      intro t ht
      rcases List.mem_cons.1 ht with rfl | ht2
      · simpa using hs
      · exact hpre t ht2

/-- C10: for an unregistered name, getGlobalInputData returns null and
setGlobalInputData returns without modifying the registry or any other
graph state; for a registered name, setGlobalInputData changes only that
entry's value field. -/
theorem globalInputData_safety (g : LGraph) (name : String) (data : JsValue) :
    (globalLookup g.global_inputs name = none →
      g.getGlobalInputData name = none ∧ g.setGlobalInputData name data = g) ∧
    (∀ e, globalLookup g.global_inputs name = some e →
      ∃ pre post, g.global_inputs = pre ++ e :: post ∧ (∀ s ∈ pre, s.name ≠ name) ∧
        e.name = name ∧
        g.setGlobalInputData name data =
          { g with global_inputs := pre ++ { e with value := data } :: post }) := by
  constructor
  · intro h
    constructor
    · unfold LGraph.getGlobalInputData
      rw [h]
    · unfold LGraph.setGlobalInputData
      rw [h]
  · intro e h
    obtain ⟨pre, post, hl, hpre, he, hset⟩ :=
      setFirstGlobalValue_lookup_some g.global_inputs name data e h
    refine ⟨pre, post, hl, hpre, he, ?_⟩
    unfold LGraph.setGlobalInputData
    rw [h, hset]

/-- A concrete graph with one registered global input, for the C10 witness. -/
def globalsGraph : LGraph :=
  LGraph.empty.addGlobalInput "speed" "number" (JsValue.num 3)

/-- Witness for C10, covering both branches at concrete inputs: a miss on
an empty registry and a hit on a one-entry registry. -/
theorem globalInputData_safety_witness :
    (LGraph.empty.getGlobalInputData "speed" = none ∧
      LGraph.empty.setGlobalInputData "speed" (JsValue.num 9) = LGraph.empty) ∧
    (∃ pre post,
      globalsGraph.global_inputs = pre ++ (⟨"speed", "number", JsValue.num 3⟩ : GlobalSlot) :: post ∧
      (∀ s ∈ pre, s.name ≠ "speed") ∧
      (⟨"speed", "number", JsValue.num 3⟩ : GlobalSlot).name = "speed" ∧
      globalsGraph.setGlobalInputData "speed" (JsValue.num 9) =
        { globalsGraph with global_inputs :=
            pre ++ ({ (⟨"speed", "number", JsValue.num 3⟩ : GlobalSlot) with
              value := JsValue.num 9 }) :: post }) :=
  ⟨(globalInputData_safety LGraph.empty "speed" (JsValue.num 9)).1 rfl,
    (globalInputData_safety globalsGraph "speed" (JsValue.num 9)).2
      ⟨"speed", "number", JsValue.num 3⟩ rfl⟩

/-! ## Claim C4: setInputData calls a method the prototype does not define -/

/-- C4 (code bug): setInputData never broadcasts anything; for every
graph, name and value the call throws a TypeError, because the body
invokes this.findNodesByName and the LGraph prototype defines
findNodesByTitle but no findNodesByName (the doc comment of
findNodesByTitle, graph.js line 511, still names the method
findNodesByName). -/
theorem setInputData_always_throws (g : LGraph) (name : String) (value : JsValue) :
    g.setInputData name value =
      Except.error "TypeError: this.findNodesByName is not a function" := rfl

/-! ## Claim C5: add at capacity throws without mutating -/

/-- C5: if add(node) is called when the node count has reached the
configured maximum, the call raises immediately and the graph is left
exactly as before the call: no node registered, no id allocated, the node
list, id map and id counter untouched.  The hypothesis hfresh states that
the silent duplicate guard at graph.js line 372 does not fire, i.e. the
node is a new one (detached, or carrying an id unknown to the graph). -/
theorem add_at_capacity_throws_and_preserves (cfg : LiteGraphConfig) (g : LGraph)
    (node : LGNode) (skip : Bool)
    (hfull : g._nodes.length ≥ cfg.MAX_NUMBER_OF_NODES)
    (hfresh : node.id = -1 ∨ byIdLookup g._nodes_by_id node.id = none) :
    g.add cfg node skip = { g := g, node := node, outcome := AddOutcome.thrown } := by
  have hguard : ¬((node.id != -1 && (byIdLookup g._nodes_by_id node.id).isSome) = true) := by
    rcases hfresh with h | h <;> simp [h]
  unfold LGraph.add
  rw [if_neg hguard, if_pos hfull]

/-- A concrete detached node used by several witnesses. -/
def freshNode : LGNode :=
  { id := -1, order := 0, title := "fresh", inputs := [], outputs := []
    ignore_remove := false, onExecute := none }

/-- Witness for C5: a configuration whose maximum is zero makes the empty
graph already full; add throws and returns the graph unchanged. -/
theorem add_at_capacity_throws_and_preserves_witness :
    LGraph.empty._nodes.length ≥ (⟨0, false⟩ : LiteGraphConfig).MAX_NUMBER_OF_NODES ∧
    freshNode.id = -1 ∧
    LGraph.empty.add ⟨0, false⟩ freshNode false =
      { g := LGraph.empty, node := freshNode, outcome := AddOutcome.thrown } :=
  ⟨by decide, rfl,
    add_at_capacity_throws_and_preserves ⟨0, false⟩ LGraph.empty freshNode false
      (by decide) (Or.inl rfl)⟩

/-! ## Claim C3: remove leaves a stale _nodes_by_id entry (code bug) -/

/-- The single node of the C3 failing input. -/
def c3node : LGNode :=
  { id := 0, order := 0, title := "n", inputs := [], outputs := []
    ignore_remove := false, onExecute := none }

/-- The C3 failing input: a graph holding one registered, removable node
with id 0 and no links. -/
def c3graph : LGraph :=
  { LGraph.empty with _nodes := [c3node], _nodes_by_id := [(0, c3node)], last_node_id := 1 }

/-- C3 (code bug, failing input): removing the only node does clean the
node list, but getNodeById(0) still returns the removed node instead of
null: remove sets node.id = -1 (graph.js line 446) before
delete this._nodes_by_id[node.id] (line 468), so the delete removes the
key -1 and the entry for the original id 0 survives, pointing at the
removed object. -/
theorem remove_leaves_stale_byid_entry :
    (c3graph.remove c3node)._nodes = [] ∧
    (c3graph.remove c3node).getNodeById 0 = some { c3node with id := -1 } := by
  constructor <;> rfl

/-! ## Claim C6: runStep error containment -/

/-- If some node in the dispatch list has a throwing onExecute callback,
the dispatch throws. -/
theorem dispatchExecute_eq_true_of_mem (l : List LGNode)
    (hx : ∃ n ∈ l, n.onExecute = some true) : dispatchExecute l = true := by
  induction l with
  | nil => simp at hx
  | cons n rest ih =>
    obtain ⟨m, hm, hme⟩ := hx
    unfold dispatchExecute
    rcases List.mem_cons.1 hm with rfl | hm2
    · rw [hme]
    · cases h : n.onExecute with
      | none => exact ih ⟨m, hm2, hme⟩
      | some b =>
        cases b with
        | false => exact ih ⟨m, hm2, hme⟩
        | true => rfl

/-- stop always leaves the scheduler stopped. -/
theorem stop_status (g : LGraph) : g.stop.status = STATUS_STOPPED := by
  unfold LGraph.stop
  split
  · next h => simpa [STATUS_STOPPED] using h
  · rfl

/-- stop leaves the node list untouched. -/
theorem stop_nodes (g : LGraph) : g.stop._nodes = g._nodes := by
  unfold LGraph.stop; split <;> rfl

/-- stop leaves the links map untouched. -/
theorem stop_links (g : LGraph) : g.stop.links = g.links := by
  unfold LGraph.stop; split <;> rfl

/-- stop leaves the id map untouched. -/
theorem stop_byid (g : LGraph) : g.stop._nodes_by_id = g._nodes_by_id := by
  unfold LGraph.stop; split <;> rfl

/-- stop leaves the fixed-step accumulator untouched. -/
theorem stop_fixedtime (g : LGraph) : g.stop.fixedtime = g.fixedtime := by
  unfold LGraph.stop; split <;> rfl

/-- stop leaves the error flag untouched. -/
theorem stop_errors (g : LGraph) : g.stop.errors_in_execution = g.errors_in_execution := by
  unfold LGraph.stop; split <;> rfl

/-- The epilogue leaves the node list untouched. -/
theorem epilogue_nodes (g : LGraph) (ts te : Int) :
    (runStepEpilogue g ts te)._nodes = g._nodes := rfl

/-- The epilogue leaves the links map untouched. -/
theorem epilogue_links (g : LGraph) (ts te : Int) :
    (runStepEpilogue g ts te).links = g.links := rfl

/-- The epilogue leaves the id map untouched. -/
theorem epilogue_byid (g : LGraph) (ts te : Int) :
    (runStepEpilogue g ts te)._nodes_by_id = g._nodes_by_id := rfl

/-- The epilogue leaves the fixed-step accumulator untouched. -/
theorem epilogue_fixedtime (g : LGraph) (ts te : Int) :
    (runStepEpilogue g ts te).fixedtime = g.fixedtime := rfl

/-- The epilogue leaves the error flag untouched. -/
theorem epilogue_errors (g : LGraph) (ts te : Int) :
    (runStepEpilogue g ts te).errors_in_execution = g.errors_in_execution := rfl

/-- The epilogue leaves the scheduler status untouched. -/
theorem epilogue_status (g : LGraph) (ts te : Int) :
    (runStepEpilogue g ts te).status = g.status := rfl

/-- C6: if a node's lifecycle callback throws during runStep, the loop
catches the error and sets errors_in_execution; with throw_errors set the
error is re-thrown to the caller, otherwise the scheduler is stopped; the
remaining iterations are aborted (here the throw happens in the first
tick, so fixedtime never advances), and the structural data (_nodes,
links, _nodes_by_id) is untouched by the error handling. -/
theorem runStep_error_containment (cfg : LiteGraphConfig) (g : LGraph) (num : Nat)
    (tstart tend : Int)
    (hthrow : ∃ n ∈ execList g, n.onExecute = some true) :
    ((g.runStep cfg num tstart tend).1.errors_in_execution = true) ∧
    (cfg.throw_errors = true → (g.runStep cfg num tstart tend).2 = true) ∧
    (cfg.throw_errors = false → (g.runStep cfg num tstart tend).2 = false ∧
      (g.runStep cfg num tstart tend).1.status = STATUS_STOPPED) ∧
    (g.runStep cfg num tstart tend).1._nodes = g._nodes ∧
    (g.runStep cfg num tstart tend).1.links = g.links ∧
    (g.runStep cfg num tstart tend).1._nodes_by_id = g._nodes_by_id ∧
    (g.runStep cfg num tstart tend).1.fixedtime = g.fixedtime := by
  obtain ⟨k, hk⟩ : ∃ k, (if num == 0 then 1 else num) = k + 1 := by
    cases num with
    | zero => exact ⟨0, rfl⟩
    | succ m => exact ⟨m, by simp⟩
  have hd : dispatchExecute
      (execList { g with globaltime := ((tstart - g.starttime : Int) : ℚ) / 1000 }) = true :=
    dispatchExecute_eq_true_of_mem _ hthrow
  have hrun : g.runStep cfg num tstart tend =
      (if cfg.throw_errors then
        ({ g with
            globaltime := ((tstart - g.starttime : Int) : ℚ) / 1000
            errors_in_execution := true }, true)
      else
        (runStepEpilogue ({ g with
            globaltime := ((tstart - g.starttime : Int) : ℚ) / 1000
            errors_in_execution := true }).stop tstart tend, false)) := by
    simp only [LGraph.runStep]
    rw [hk]
    simp only [runTicks]
    rw [hd]
    simp
  rw [hrun]
  cases hte : cfg.throw_errors
  · rw [if_neg (by simp)]
    refine ⟨?_, fun hc => absurd hc (by simp), fun _ => ⟨rfl, ?_⟩, ?_, ?_, ?_, ?_⟩ <;>
      simp [epilogue_nodes, epilogue_links, epilogue_byid, epilogue_fixedtime,
        epilogue_errors, epilogue_status, stop_nodes, stop_links, stop_byid,
        stop_fixedtime, stop_errors, stop_status]
  · rw [if_pos (show (true = true) from rfl)]
    exact ⟨rfl, fun _ => rfl, fun hc => absurd hc (by simp), rfl, rfl, rfl, rfl⟩


/-- A node whose onExecute callback throws, for the C6 witness. -/
def throwingNode : LGNode :=
  { id := 0, order := 0, title := "boom", inputs := [], outputs := []
    ignore_remove := false, onExecute := some true }

/-- A one-node graph whose only node throws in onExecute. -/
def throwingGraph : LGraph :=
  { LGraph.empty with
      _nodes := [throwingNode]
      _nodes_by_id := [(0, throwingNode)]
      last_node_id := 1 }

/-- Witness for C6 at a concrete graph, covering the lenient and the
strict configuration. -/
theorem runStep_error_containment_witness :
    (∃ n ∈ execList throwingGraph, n.onExecute = some true) ∧
    ((throwingGraph.runStep ⟨1000, false⟩ 5 0 3).1.errors_in_execution = true) ∧
    ((throwingGraph.runStep ⟨1000, false⟩ 5 0 3).2 = false ∧
      (throwingGraph.runStep ⟨1000, false⟩ 5 0 3).1.status = STATUS_STOPPED) ∧
    ((throwingGraph.runStep ⟨1000, true⟩ 5 0 3).2 = true) ∧
    (throwingGraph.runStep ⟨1000, false⟩ 5 0 3).1.fixedtime = throwingGraph.fixedtime :=
  ⟨by decide,
    (runStep_error_containment ⟨1000, false⟩ throwingGraph 5 0 3 (by decide)).1,
    (runStep_error_containment ⟨1000, false⟩ throwingGraph 5 0 3 (by decide)).2.2.1 rfl,
    (runStep_error_containment ⟨1000, true⟩ throwingGraph 5 0 3 (by decide)).2.1 rfl,
    (runStep_error_containment ⟨1000, false⟩ throwingGraph 5 0 3 (by decide)).2.2.2.2.2.2⟩

/-! ## Basic lemmas for the execution-order proofs -/

/-- The ids of a node list. -/
def idsOf (l : List LGNode) : List Int := l.map (fun n => n.id)

/-- A node list with distinct ids has no duplicate nodes. -/
theorem nodup_of_idsOf (l : List LGNode) (h : (idsOf l).Nodup) : l.Nodup :=
  List.Nodup.of_map _ h

/-- In a node list with distinct ids, a node is determined by its id. -/
theorem eq_of_id_eq (l : List LGNode) (h : (idsOf l).Nodup) (a b : LGNode)
    (ha : a ∈ l) (hb : b ∈ l) (hid : a.id = b.id) : a = b := by
  have h' : (l.map (fun n : LGNode => n.id)).Nodup := h
  exact List.inj_on_of_nodup_map h' ha hb hid

/-- remLookup after remStore at the stored key. -/
theorem remLookup_remStore_self (r : List (Int × Int)) (k : Int) (v : Int) :
    remLookup (remStore r k v) k = some v := by
  induction r with
  | nil => simp [remStore, remLookup]
  | cons p rest ih =>
    by_cases h : p.1 = k
    · simp [remStore, h, remLookup]
    · have hb : ((p.1 == k) = false) := by simp [h]
      simp only [remStore, if_neg h, remLookup, List.find?_cons, hb]
      exact ih

/-- remLookup after remStore at a different key. -/
theorem remLookup_remStore_ne (r : List (Int × Int)) (k i : Int) (v : Int) (hne : i ≠ k) :
    remLookup (remStore r k v) i = remLookup r i := by
  have hb : ((k == i) = false) := by simp; exact fun h => hne h.symm
  induction r with
  | nil => simp [remStore, remLookup, List.find?_cons, hb]
  | cons p rest ih =>
    by_cases h : p.1 = k
    · subst h
      have hpb : ((p.1 == i) = false) := by simp; exact fun h => hne h.symm
      simp [remStore, remLookup, List.find?_cons, hb, hpb]
    · simp only [remStore, if_neg h, remLookup, List.find?_cons]
      cases hpi : (p.1 == i) with
      | true => rfl
      | false => exact ih

/-- The number of links of a list whose id is not yet visited. -/
def unvCount (links : List LGLink) (vis : List Nat) : Nat :=
  (links.filter (fun l => decide (l.id ∉ vis))).length

/-- Visiting one more id never increases the unvisited count. -/
theorem unvCount_cons_le (links : List LGLink) (x : Nat) (vis : List Nat) :
    unvCount links (x :: vis) ≤ unvCount links vis := by
  unfold unvCount
  induction links with
  | nil => simp
  | cons a rest ih =>
    rw [List.filter_cons, List.filter_cons]
    by_cases h1 : a.id ∉ x :: vis
    · have h2 : a.id ∉ vis := fun hm => h1 (List.mem_cons_of_mem _ hm)
      rw [if_pos (decide_eq_true h1), if_pos (decide_eq_true h2)]
      exact Nat.succ_le_succ ih
    · rw [if_neg (by rw [decide_eq_false h1]; exact Bool.false_ne_true)]
      by_cases h2 : a.id ∉ vis
      · rw [if_pos (decide_eq_true h2)]
        exact Nat.le_succ_of_le ih
      · rw [if_neg (by rw [decide_eq_false h2]; exact Bool.false_ne_true)]
        exact ih

/-- Visiting the id of an actually present, unvisited link strictly
decreases the unvisited count. -/
theorem unvCount_cons_lt (links : List LGLink) (link : LGLink) (vis : List Nat)
    (hmem : link ∈ links) (hnv : link.id ∉ vis) :
    unvCount links (link.id :: vis) < unvCount links vis := by
  unfold unvCount
  induction links with
  | nil => cases hmem
  | cons a rest ih =>
    rw [List.filter_cons, List.filter_cons]
    rcases List.mem_cons.1 hmem with rfl | hm
    · have hd : ¬ (link.id ∉ link.id :: vis) := by simp
      rw [if_neg (by rw [decide_eq_false hd]; exact Bool.false_ne_true),
        if_pos (decide_eq_true hnv)]
      exact Nat.lt_succ_of_le (by simpa [unvCount] using unvCount_cons_le rest link.id vis)
    · by_cases h1 : a.id ∉ link.id :: vis
      · have h2 : a.id ∉ vis := fun hm2 => h1 (List.mem_cons_of_mem _ hm2)
        rw [if_pos (decide_eq_true h1), if_pos (decide_eq_true h2)]
        exact Nat.succ_lt_succ (ih hm)
      · rw [if_neg (by rw [decide_eq_false h1]; exact Bool.false_ne_true)]
        by_cases h2 : a.id ∉ vis
        · rw [if_pos (decide_eq_true h2)]
          exact Nat.lt_succ_of_lt (ih hm)
        · rw [if_neg (by rw [decide_eq_false h2]; exact Bool.false_ne_true)]
          exact ih hm

/-- The loop measure: queued nodes plus unvisited links. -/
def kMeasure (g : LGraph) (st : KState) : Nat :=
  st.S.length + unvCount g.links st.visited

/-- Processing one link never increases the measure: a push into S is paid
for by a fresh visited link. -/
theorem processLink_measure (g : LGraph) (st : KState) (lid : Nat) :
    kMeasure g (processLink g st lid) ≤ kMeasure g st := by
  unfold processLink
  cases hfind : linkLookup g.links lid with
  | none => exact le_refl _
  | some link =>
    dsimp only
    have hmem : link ∈ g.links := List.mem_of_find?_eq_some hfind
    by_cases hv : link.id ∈ st.visited
    · rw [if_pos hv]
    · rw [if_neg hv]
      cases hby : g.getNodeById link.target_id with
      | none =>
        show kMeasure g { st with visited := link.id :: st.visited } ≤ kMeasure g st
        unfold kMeasure
        exact Nat.add_le_add_left (unvCount_cons_le g.links link.id st.visited) _
      | some target =>
        dsimp only
        cases hrem : remLookup st.remaining target.id with
        | none =>
          show kMeasure g { st with visited := link.id :: st.visited } ≤ kMeasure g st
          unfold kMeasure
          exact Nat.add_le_add_left (unvCount_cons_le g.links link.id st.visited) _
        | some v =>
          dsimp only
          by_cases hz : v - 1 = 0
          · rw [if_pos hz]
            show kMeasure g
                { st with
                    visited := link.id :: st.visited
                    remaining := remStore st.remaining target.id (v - 1)
                    S := st.S ++ [target] } ≤ kMeasure g st
            unfold kMeasure
            have hlt := unvCount_cons_lt g.links link st.visited hmem hv
            simp only [List.length_append, List.length_cons, List.length_nil]
            omega
          · rw [if_neg hz]
            show kMeasure g
                { st with
                    visited := link.id :: st.visited
                    remaining := remStore st.remaining target.id (v - 1) } ≤ kMeasure g st
            unfold kMeasure
            exact Nat.add_le_add_left (unvCount_cons_le g.links link.id st.visited) _

/-- Folding processLink over a list of link ids never increases the measure. -/
theorem foldl_processLink_measure (g : LGraph) (lids : List Nat) (st : KState) :
    kMeasure g (lids.foldl (processLink g) st) ≤ kMeasure g st := by
  induction lids generalizing st with
  | nil => exact le_refl _
  | cons x rest ih => exact le_trans (ih (processLink g st x)) (processLink_measure g st x)

/-- One loop iteration strictly decreases the measure. -/
theorem kahnStep_measure (g : LGraph) (st : KState) (n : LGNode) (rest : List LGNode)
    (hS : st.S = n :: rest) : kMeasure g (kahnStep g st n rest) < kMeasure g st := by
  have h1 : kMeasure g (kahnStep g st n rest) ≤ kMeasure g
      { st with S := rest, L := st.L ++ [n], M := st.M.filter (fun m => m.id != n.id) } :=
    foldl_processLink_measure g n.outputs.flatten _
  have h2 : kMeasure g
      { st with S := rest, L := st.L ++ [n], M := st.M.filter (fun m => m.id != n.id) } + 1 =
      kMeasure g st := by
    unfold kMeasure
    rw [hS]
    simp [List.length_cons]
    omega
  omega

/-- With more fuel than the measure, the fueled loop drains S completely,
i.e. it ends exactly where the source while loop ends. -/
theorem kahnLoopFuel_S_nil (g : LGraph) :
    ∀ fuel st, kMeasure g st < fuel → (kahnLoopFuel g fuel st).S = [] := by
  intro fuel
  induction fuel with
  | zero => intro st h; omega
  | succ f ih =>
    intro st h
    cases hS : st.S with
    | nil =>
      have hred : kahnLoopFuel g (f + 1) st = st := by
        unfold kahnLoopFuel
        rw [hS]
      rw [hred, hS]
    | cons n rest =>
      have hred : kahnLoopFuel g (f + 1) st = kahnLoopFuel g f (kahnStep g st n rest) := by
        conv_lhs => rw [kahnLoopFuel]
        rw [hS]
      rw [hred]
      apply ih
      have := kahnStep_measure g st n rest hS
      omega

/-- Any property preserved by a loop iteration holds at the end of the
fueled loop. -/
theorem kahnLoopFuel_inv (g : LGraph) (P : KState → Prop)
    (hstep : ∀ st n rest, st.S = n :: rest → P st → P (kahnStep g st n rest)) :
    ∀ fuel st, P st → P (kahnLoopFuel g fuel st) := by
  intro fuel
  induction fuel with
  | zero => intro st h; exact h
  | succ f ih =>
    intro st h
    cases hS : st.S with
    | nil =>
      have hred : kahnLoopFuel g (f + 1) st = st := by
        unfold kahnLoopFuel
        rw [hS]
      rw [hred]
      exact h
    | cons n rest =>
      have hred : kahnLoopFuel g (f + 1) st = kahnLoopFuel g f (kahnStep g st n rest) := by
        conv_lhs => rw [kahnLoopFuel]
        rw [hS]
      rw [hred]
      exact ih _ (hstep st n rest hS h)

/-- Inserting into a sorted-by-id list is a permutation of consing. -/
theorem insertByIdSorted_perm (n : LGNode) (l : List LGNode) :
    (insertByIdSorted n l).Perm (n :: l) := by
  induction l with
  | nil => exact List.Perm.refl _
  | cons m rest ih =>
    unfold insertByIdSorted
    by_cases h : n.id ≤ m.id
    · rw [if_pos h]
    · rw [if_neg h]
      exact List.Perm.trans (List.Perm.cons m ih) (List.Perm.swap n m rest)

/-- Sorting the residual nodes by id is a permutation. -/
theorem sortById_perm (l : List LGNode) : (sortById l).Perm l := by
  induction l with
  | nil => exact List.Perm.refl _
  | cons m rest ih =>
    unfold sortById
    exact List.Perm.trans (insertByIdSorted_perm m (sortById rest)) (List.Perm.cons m ih)

/-- Assigning orders does not change the ids. -/
theorem idsOf_assignOrdersFrom (k : Nat) (l : List LGNode) :
    idsOf (assignOrdersFrom k l) = idsOf l := by
  induction l generalizing k with
  | nil => rfl
  | cons n rest ih =>
    unfold assignOrdersFrom idsOf
    rw [List.map_cons, List.map_cons]
    have hrec := ih (k + 1)
    unfold idsOf at hrec
    rw [hrec]

/-- Assigning orders does not change the length. -/
theorem length_assignOrdersFrom (k : Nat) (l : List LGNode) :
    (assignOrdersFrom k l).length = l.length := by
  induction l generalizing k with
  | nil => rfl
  | cons n rest ih =>
    unfold assignOrdersFrom
    rw [List.length_cons, List.length_cons, ih (k + 1)]

/-! ## The node-container representation invariant -/

/-- The representation invariant tying the two node containers together:
ids are unique, every live node is found by its id, and every id-map entry
is a live node keyed by its own id. -/
structure NodeRep (g : LGraph) : Prop where
  nodup : (idsOf g._nodes).Nodup
  complete : ∀ n ∈ g._nodes, g.getNodeById n.id = some n
  sound : ∀ p ∈ g._nodes_by_id, p.2 ∈ g._nodes ∧ p.2.id = p.1

/-- Under the representation invariant, a successful getNodeById returns a
live node carrying the looked-up id. -/
theorem getNodeById_sound (g : LGraph) (hrep : NodeRep g) (i : Int) (t : LGNode)
    (h : g.getNodeById i = some t) : t ∈ g._nodes ∧ t.id = i := by
  unfold LGraph.getNodeById byIdLookup at h
  cases hf : g._nodes_by_id.find? (fun p => p.1 == i) with
  | none => rw [hf] at h; simp at h
  | some p =>
    rw [hf] at h
    simp only [Option.map_some'] at h
    have hp := List.mem_of_find?_eq_some hf
    have hpred := List.find?_some hf
    have hkey : p.1 = i := by
      have := hpred
      simp at this
      exact this
    obtain ⟨hmem, hid⟩ := hrep.sound p hp
    have ht := Option.some.inj h
    subst ht
    exact ⟨hmem, by rw [hid, hkey]⟩

/-! ## The permutation invariant of the loop (claim C2) -/

/-- Invariant carried through the while loop: every processed or queued
node is a live node; their ids are distinct; M holds exactly the live
nodes not yet processed; and remaining counters of processed or queued
nodes can never fire again (they are at most zero). -/
structure PermInv (g : LGraph) (st : KState) : Prop where
  sub : ∀ n ∈ st.L ++ st.S, n ∈ g._nodes
  nodupIds : (idsOf (st.L ++ st.S)).Nodup
  mchar : st.M = g._nodes.filter (fun m => decide (m.id ∉ idsOf st.L))
  remNonpos : ∀ i ∈ idsOf (st.L ++ st.S), ∀ v, remLookup st.remaining i = some v → v ≤ 0

/-- processLink preserves the permutation invariant. -/
theorem processLink_permInv (g : LGraph) (hrep : NodeRep g) (st : KState) (lid : Nat)
    (h : PermInv g st) : PermInv g (processLink g st lid) := by
  unfold processLink
  cases hfind : linkLookup g.links lid with
  | none => exact h
  | some link =>
    dsimp only
    by_cases hv : link.id ∈ st.visited
    · rw [if_pos hv]
      exact h
    · rw [if_neg hv]
      cases hby : g.getNodeById link.target_id with
      | none => exact ⟨h.sub, h.nodupIds, h.mchar, h.remNonpos⟩
      | some target =>
        dsimp only
        cases hrem : remLookup st.remaining target.id with
        | none => exact ⟨h.sub, h.nodupIds, h.mchar, h.remNonpos⟩
        | some v =>
          dsimp only
          obtain ⟨htmem, htid⟩ := getNodeById_sound g hrep link.target_id target hby
          by_cases hz : v - 1 = 0
          · rw [if_pos hz]
            have hnotin : target.id ∉ idsOf (st.L ++ st.S) := by
              intro hmem2
              have := h.remNonpos target.id hmem2 v hrem
              omega
            refine ⟨?_, ?_, h.mchar, ?_⟩
            · intro x hx
              rcases List.mem_append.1 hx with hx1 | hx2
              · exact h.sub x (List.mem_append.2 (Or.inl hx1))
              · rcases List.mem_append.1 hx2 with hx3 | hx4
                · exact h.sub x (List.mem_append.2 (Or.inr hx3))
                · rw [List.mem_singleton.1 hx4]
                  exact htmem
            · have hassoc : st.L ++ (st.S ++ [target]) = (st.L ++ st.S) ++ [target] :=
                (List.append_assoc st.L st.S [target]).symm
              show (idsOf (st.L ++ (st.S ++ [target]))).Nodup
              rw [hassoc]
              unfold idsOf
              rw [List.map_append]
              rw [List.nodup_append]
              refine ⟨h.nodupIds, List.nodup_singleton _, ?_⟩
              intro a ha hb
              have hb' : a = target.id := by simpa using hb
              subst hb'
              exact hnotin ha
            · intro i hi v2 hv2
              have hi' : i ∈ idsOf (st.L ++ st.S) ∨ i = target.id := by
                have hassoc : st.L ++ (st.S ++ [target]) = (st.L ++ st.S) ++ [target] :=
                  (List.append_assoc st.L st.S [target]).symm
                unfold idsOf at hi ⊢
                rw [hassoc, List.map_append] at hi
                rcases List.mem_append.1 hi with h1 | h2
                · exact Or.inl h1
                · exact Or.inr (by simpa using h2)
              rcases hi' with h1 | h2
              · have hne : i ≠ target.id := fun he => hnotin (he ▸ h1)
                rw [remLookup_remStore_ne _ _ _ _ hne] at hv2
                exact h.remNonpos i h1 v2 hv2
              · subst h2
                rw [remLookup_remStore_self] at hv2
                have := Option.some.inj hv2
                omega
          · rw [if_neg hz]
            refine ⟨h.sub, h.nodupIds, h.mchar, ?_⟩
            intro i hi v2 hv2
            by_cases he : i = target.id
            · subst he
              rw [remLookup_remStore_self] at hv2
              have h1 := h.remNonpos target.id hi v hrem
              have h2 := Option.some.inj hv2
              omega
            · rw [remLookup_remStore_ne _ _ _ _ he] at hv2
              exact h.remNonpos i hi v2 hv2

/-- Folding processLink over link ids preserves the permutation invariant. -/
theorem foldl_processLink_permInv (g : LGraph) (hrep : NodeRep g) (lids : List Nat)
    (st : KState) (h : PermInv g st) : PermInv g (lids.foldl (processLink g) st) := by
  induction lids generalizing st with
  | nil => exact h
  | cons x rest ih => exact ih _ (processLink_permInv g hrep st x h)

/-- One full loop iteration preserves the permutation invariant. -/
theorem kahnStep_permInv (g : LGraph) (hrep : NodeRep g) (st : KState) (n : LGNode)
    (rest : List LGNode) (hS : st.S = n :: rest) (h : PermInv g st) :
    PermInv g (kahnStep g st n rest) := by
  apply foldl_processLink_permInv g hrep
  have hmemsame : ∀ x : LGNode, x ∈ (st.L ++ [n]) ++ rest ↔ x ∈ st.L ++ st.S := by
    intro x
    rw [hS]
    rw [List.append_assoc]
    rfl
  refine ⟨?_, ?_, ?_, ?_⟩
  · intro x hx
    exact h.sub x ((hmemsame x).1 hx)
  · show (idsOf ((st.L ++ [n]) ++ rest)).Nodup
    have : (st.L ++ [n]) ++ rest = st.L ++ st.S := by
      rw [hS, List.append_assoc]
      rfl
    rw [this]
    exact h.nodupIds
  · show st.M.filter (fun m => m.id != n.id) =
      g._nodes.filter (fun m => decide (m.id ∉ idsOf (st.L ++ [n])))
    rw [h.mchar, List.filter_filter]
    apply List.filter_congr
    intro m hm
    by_cases h1 : m.id ∈ idsOf st.L
    · have h3 : m.id ∈ idsOf (st.L ++ [n]) := by
        unfold idsOf at h1 ⊢
        rw [List.map_append]
        exact List.mem_append.2 (Or.inl h1)
      simp [h1, h3]
    · by_cases h2 : m.id = n.id
      · have h3 : m.id ∈ idsOf (st.L ++ [n]) := by
          unfold idsOf
          rw [List.map_append]
          exact List.mem_append.2 (Or.inr (by simp [h2]))
        have h4 : n.id ∈ idsOf (st.L ++ [n]) := by
          unfold idsOf
          rw [List.map_append]
          exact List.mem_append.2 (Or.inr (by simp))
        simp [h1, h2, h3, h4]
      · have h3 : m.id ∉ idsOf (st.L ++ [n]) := by
          unfold idsOf
          rw [List.map_append]
          intro hc
          rcases List.mem_append.1 hc with hc1 | hc2
          · exact h1 hc1
          · exact h2 (by simpa using hc2)
        simp [h1, h2, h3]
  · intro i hi v hv
    apply h.remNonpos i _ v hv
    have : (st.L ++ [n]) ++ rest = st.L ++ st.S := by
      rw [hS, List.append_assoc]
      rfl
    show i ∈ idsOf (st.L ++ st.S)
    rw [← this]
    exact hi

/-- Storing a node with a fresh id appends it. -/
theorem mInsert_append (M : List LGNode) (n : LGNode) (h : ∀ m ∈ M, m.id ≠ n.id) :
    mInsert M n = M ++ [n] := by
  induction M with
  | nil => rfl
  | cons m rest ih =>
    unfold mInsert
    rw [if_neg (h m (List.mem_cons_self m rest))]
    rw [ih (fun x hx => h x (List.mem_cons_of_mem m hx))]
    rfl

/-- initStep leaves L alone. -/
theorem initStep_L (st : KState) (n : LGNode) : (initStep st n).L = st.L := by
  unfold initStep
  split <;> rfl

/-- initStep leaves visited alone. -/
theorem initStep_visited (st : KState) (n : LGNode) : (initStep st n).visited = st.visited := by
  unfold initStep
  split <;> rfl

/-- initStep stores the node in M. -/
theorem initStep_M (st : KState) (n : LGNode) : (initStep st n).M = mInsert st.M n := by
  unfold initStep
  split <;> rfl

/-- initStep queues exactly the nodes without connected inputs. -/
theorem initStep_S (st : KState) (n : LGNode) :
    (initStep st n).S = if connectedInputCount n = 0 then st.S ++ [n] else st.S := by
  unfold initStep
  by_cases h : connectedInputCount n = 0
  · rw [if_pos h, if_pos h]
  · rw [if_neg h, if_neg h]

/-- initStep stores a counter exactly for nodes with connected inputs. -/
theorem initStep_remaining (st : KState) (n : LGNode) :
    (initStep st n).remaining =
      if connectedInputCount n = 0 then st.remaining
      else remStore st.remaining n.id (connectedInputCount n) := by
  unfold initStep
  by_cases h : connectedInputCount n = 0
  · rw [if_pos h, if_pos h]
  · rw [if_neg h, if_neg h]

/-- The seeding fold leaves L alone. -/
theorem initFold_L : ∀ (l : List LGNode) (st : KState), (l.foldl initStep st).L = st.L := by
  intro l
  induction l with
  | nil => intro st; rfl
  | cons n rest ih =>
    intro st
    rw [List.foldl_cons, ih, initStep_L]

/-- The seeding fold leaves visited alone. -/
theorem initFold_visited : ∀ (l : List LGNode) (st : KState),
    (l.foldl initStep st).visited = st.visited := by
  intro l
  induction l with
  | nil => intro st; rfl
  | cons n rest ih =>
    intro st
    rw [List.foldl_cons, ih, initStep_visited]

/-- The seeding fold queues the nodes without connected inputs, in node
order. -/
theorem initFold_S : ∀ (l : List LGNode) (st : KState),
    (l.foldl initStep st).S = st.S ++ l.filter (fun n => decide (connectedInputCount n = 0)) := by
  intro l
  induction l with
  | nil => intro st; simp
  | cons n rest ih =>
    intro st
    rw [List.foldl_cons, ih, initStep_S, List.filter_cons]
    by_cases h : connectedInputCount n = 0
    · rw [if_pos h, if_pos (decide_eq_true h), List.append_assoc]
      rfl
    · rw [if_neg h, if_neg (by rw [decide_eq_false h]; exact Bool.false_ne_true)]

/-- The seeding fold appends every node to M, given fresh distinct ids. -/
theorem initFold_M : ∀ (l : List LGNode) (st : KState),
    (∀ n ∈ l, ∀ m ∈ st.M, m.id ≠ n.id) → (idsOf l).Nodup →
    (l.foldl initStep st).M = st.M ++ l := by
  intro l
  induction l with
  | nil => intro st _ _; simp
  | cons n rest ih =>
    intro st hdisj hnodup
    rw [List.foldl_cons]
    have hstep : (initStep st n).M = st.M ++ [n] := by
      rw [initStep_M]
      exact mInsert_append _ _ (fun m hm => hdisj n (List.mem_cons_self n rest) m hm)
    have hnidrest : n.id ∉ idsOf rest := by
      have hx : (idsOf (n :: rest)).Nodup := hnodup
      have : idsOf (n :: rest) = n.id :: idsOf rest := rfl
      rw [this] at hx
      exact (List.nodup_cons.1 hx).1
    have hd2 : ∀ x ∈ rest, ∀ m ∈ (initStep st n).M, m.id ≠ x.id := by
      intro x hx m hm
      rw [hstep] at hm
      rcases List.mem_append.1 hm with hm1 | hm2
      · exact hdisj x (List.mem_cons_of_mem n hx) m hm1
      · rw [List.mem_singleton.1 hm2]
        intro he
        exact hnidrest (by
          unfold idsOf
          exact List.mem_map.2 ⟨x, hx, he.symm⟩)
    have hn2 : (idsOf rest).Nodup := by
      have hx : (idsOf (n :: rest)).Nodup := hnodup
      have : idsOf (n :: rest) = n.id :: idsOf rest := rfl
      rw [this] at hx
      exact (List.nodup_cons.1 hx).2
    rw [ih (initStep st n) hd2 hn2, hstep, List.append_assoc]
    rfl

/-- Any counter present after the seeding fold belongs to a listed node
with connected inputs or was already present. -/
theorem initFold_rem : ∀ (l : List LGNode) (st : KState) (i : Int) (v : Int),
    remLookup (l.foldl initStep st).remaining i = some v →
    (∃ n ∈ l, n.id = i ∧ v = (connectedInputCount n : Int) ∧ connectedInputCount n ≠ 0) ∨
      remLookup st.remaining i = some v := by
  intro l
  induction l with
  | nil => intro st i v h; exact Or.inr h
  | cons n rest ih =>
    intro st i v h
    rw [List.foldl_cons] at h
    rcases ih (initStep st n) i v h with h1 | h2
    · obtain ⟨x, hx, hxi, hxv, hxc⟩ := h1
      exact Or.inl ⟨x, List.mem_cons_of_mem n hx, hxi, hxv, hxc⟩
    · rw [initStep_remaining] at h2
      by_cases hc : connectedInputCount n = 0
      · rw [if_pos hc] at h2
        exact Or.inr h2
      · rw [if_neg hc] at h2
        by_cases hi : i = n.id
        · subst hi
          rw [remLookup_remStore_self] at h2
          exact Or.inl ⟨n, List.mem_cons_self n rest, rfl, (Option.some.inj h2).symm, hc⟩
        · rw [remLookup_remStore_ne _ _ _ _ hi] at h2
          exact Or.inr h2

/-- With nothing visited every link is unvisited. -/
theorem unvCount_nil (links : List LGLink) : unvCount links [] = links.length := by
  unfold unvCount
  induction links with
  | nil => rfl
  | cons a rest ih =>
    rw [List.filter_cons, if_pos (decide_eq_true (by simp)), List.length_cons, ih]
    rfl

/-- The seeded state satisfies the permutation invariant. -/
theorem initKahn_permInv (g : LGraph) (hrep : NodeRep g) : PermInv g (initKahn g) := by
  have hL : (initKahn g).L = [] := initFold_L g._nodes _
  have hS : (initKahn g).S =
      g._nodes.filter (fun n => decide (connectedInputCount n = 0)) := by
    have h0 := initFold_S g._nodes { L := [], S := [], M := [], visited := [], remaining := [] }
    simpa using h0
  have hM : (initKahn g).M = g._nodes := by
    have h0 := initFold_M g._nodes { L := [], S := [], M := [], visited := [], remaining := [] }
      (by intro x hx m hm; cases hm) hrep.nodup
    simpa using h0
  refine ⟨?_, ?_, ?_, ?_⟩
  · intro x hx
    rw [hL, hS] at hx
    simp only [List.nil_append] at hx
    exact (List.mem_filter.1 hx).1
  · show (idsOf ((initKahn g).L ++ (initKahn g).S)).Nodup
    rw [hL, hS]
    simp only [List.nil_append]
    have hsub : (g._nodes.filter (fun n => decide (connectedInputCount n = 0))).Sublist
        g._nodes := List.filter_sublist _
    have h1 : (List.map (fun n : LGNode => n.id) g._nodes).Nodup := hrep.nodup
    exact (hsub.map (fun n : LGNode => n.id)).nodup h1
  · rw [hM, hL]
    exact (List.filter_eq_self.2 (fun a _ => decide_eq_true (by simp [idsOf]))).symm
  · intro i hi v hv
    rw [hL, hS] at hi
    simp only [List.nil_append] at hi
    unfold idsOf at hi
    obtain ⟨x, hxmem, hxid⟩ := List.mem_map.1 hi
    have hx0 : connectedInputCount x = 0 := by
      have := (List.mem_filter.1 hxmem).2
      simpa using this
    have hxnodes : x ∈ g._nodes := (List.mem_filter.1 hxmem).1
    rcases initFold_rem g._nodes { L := [], S := [], M := [], visited := [], remaining := [] }
        i v hv with h1 | h2
    · obtain ⟨n, hn, hni, hnv, hnc⟩ := h1
      have hnx : n = x :=
        eq_of_id_eq g._nodes hrep.nodup n x hn hxnodes (hni.trans hxid.symm)
      rw [hnx] at hnc
      exact absurd hx0 hnc
    · simp [remLookup] at h2

/-- The loop always ends with an empty queue: the fuel suffices. -/
theorem kahnFinal_S_nil (g : LGraph) : (kahnFinal g).S = [] := by
  show (kahnLoopFuel g ((initKahn g).S.length + g.links.length + 1) (initKahn g)).S = []
  apply kahnLoopFuel_S_nil
  unfold kMeasure
  have hv : (initKahn g).visited = [] := initFold_visited g._nodes _
  rw [hv, unvCount_nil]
  omega

/-- The permutation invariant holds when the loop ends. -/
theorem kahnFinal_permInv (g : LGraph) (hrep : NodeRep g) : PermInv g (kahnFinal g) :=
  kahnLoopFuel_inv g (PermInv g)
    (fun st n rest hS h => kahnStep_permInv g hrep st n rest hS h)
    ((initKahn g).S.length + g.links.length + 1) (initKahn g) (initKahn_permInv g hrep)

/-- The ordered list plus the sorted residual is a permutation of the
graph's nodes. -/
theorem kahnFinal_perm (g : LGraph) (hrep : NodeRep g) :
    ((kahnFinal g).L ++ sortById (kahnFinal g).M).Perm g._nodes := by
  have hinv := kahnFinal_permInv g hrep
  have hSnil := kahnFinal_S_nil g
  have hnodesNodup : g._nodes.Nodup := nodup_of_idsOf g._nodes hrep.nodup
  have hidsL : (idsOf (kahnFinal g).L).Nodup := by
    have h0 := hinv.nodupIds
    rw [hSnil, List.append_nil] at h0
    exact h0
  have hLnodup : (kahnFinal g).L.Nodup := nodup_of_idsOf _ hidsL
  have hLsub : ∀ x ∈ (kahnFinal g).L, x ∈ g._nodes := by
    intro x hx
    exact hinv.sub x (List.mem_append.2 (Or.inl hx))
  have hperm1 : (kahnFinal g).L.Perm
      (g._nodes.filter (fun m => decide (m.id ∈ idsOf (kahnFinal g).L))) := by
    have hfnodup : (g._nodes.filter
        (fun m => decide (m.id ∈ idsOf (kahnFinal g).L))).Nodup :=
      (List.filter_sublist _).nodup hnodesNodup
    apply (List.perm_ext_iff_of_nodup hLnodup hfnodup).2
    intro a
    constructor
    · intro ha
      refine List.mem_filter.2 ⟨hLsub a ha, decide_eq_true ?_⟩
      unfold idsOf
      exact List.mem_map.2 ⟨a, ha, rfl⟩
    · intro ha
      obtain ⟨han, hpred⟩ := List.mem_filter.1 ha
      have hid : a.id ∈ idsOf (kahnFinal g).L := of_decide_eq_true hpred
      unfold idsOf at hid
      obtain ⟨b, hb, hbid⟩ := List.mem_map.1 hid
      have hba : b = a := eq_of_id_eq g._nodes hrep.nodup b a (hLsub b hb) han hbid
      rw [← hba]
      exact hb
  have hpermM : (sortById (kahnFinal g).M).Perm
      (g._nodes.filter (fun m => decide (m.id ∉ idsOf (kahnFinal g).L))) := by
    exact (sortById_perm (kahnFinal g).M).trans (List.Perm.of_eq hinv.mchar)
  have hfilters : (g._nodes.filter (fun m => decide (m.id ∈ idsOf (kahnFinal g).L)) ++
      g._nodes.filter (fun m => decide (m.id ∉ idsOf (kahnFinal g).L))).Perm g._nodes := by
    have h0 := List.filter_append_perm
      (fun m : LGNode => decide (m.id ∈ idsOf (kahnFinal g).L)) g._nodes
    have heq : (fun m : LGNode => !(decide (m.id ∈ idsOf (kahnFinal g).L))) =
        (fun m : LGNode => decide (m.id ∉ idsOf (kahnFinal g).L)) := by
      funext m
      by_cases hm : m.id ∈ idsOf (kahnFinal g).L <;> simp [hm]
    rw [heq] at h0
    exact h0
  exact (hperm1.append hpermM).trans hfilters

/-- C2: for every graph whose two node containers are consistent (ids
unique, id map holding exactly the live nodes), including graphs with
cycles, dangling links and unreachable nodes, computeExecutionOrder
returns a list of the same length as the node list containing every node
(by id) exactly once; the computation is total, raising no exception. -/
theorem computeExecutionOrder_total_coverage (g : LGraph)
    (hnodup : (idsOf g._nodes).Nodup)
    (hcomplete : ∀ n ∈ g._nodes, g.getNodeById n.id = some n)
    (hsound : ∀ p ∈ g._nodes_by_id, p.2 ∈ g._nodes ∧ p.2.id = p.1) :
    g.computeExecutionOrder.length = g._nodes.length ∧
    (idsOf g.computeExecutionOrder).Perm (idsOf g._nodes) := by
  have hrep : NodeRep g := ⟨hnodup, hcomplete, hsound⟩
  have hperm := kahnFinal_perm g hrep
  constructor
  · show (assignOrdersFrom 0 ((kahnFinal g).L ++ sortById (kahnFinal g).M)).length = _
    rw [length_assignOrdersFrom]
    exact hperm.length_eq
  · show (idsOf (assignOrdersFrom 0 ((kahnFinal g).L ++ sortById (kahnFinal g).M))).Perm _
    rw [idsOf_assignOrdersFrom]
    exact hperm.map (fun n => n.id)

/-- First node of the 2-cycle scenario: its input is fed by the second
node, its output feeds the second node through link 1. -/
def cycNodeA : LGNode :=
  { id := 0, order := 0, title := "a", inputs := [some 2], outputs := [[1]]
    ignore_remove := false, onExecute := none }

/-- Second node of the 2-cycle scenario. -/
def cycNodeB : LGNode :=
  { id := 1, order := 0, title := "b", inputs := [some 1], outputs := [[2]]
    ignore_remove := false, onExecute := none }

/-- Link from node 0 to node 1 in the 2-cycle scenario. -/
def cycLink1 : LGLink :=
  { id := 1, origin_id := 0, origin_slot := 0, target_id := 1, target_slot := 0 }

/-- Link from node 1 back to node 0 in the 2-cycle scenario. -/
def cycLink2 : LGLink :=
  { id := 2, origin_id := 1, origin_slot := 0, target_id := 0, target_slot := 0 }

/-- The 2-cycle graph of scenario 4: node 0 feeds node 1 feeds node 0. -/
def cycGraph : LGraph :=
  { LGraph.empty with
      _nodes := [cycNodeA, cycNodeB]
      _nodes_by_id := [(0, cycNodeA), (1, cycNodeB)]
      links := [cycLink1, cycLink2]
      last_node_id := 2
      last_link_id := 2 }

/-- Witness for C2 at the 2-cycle graph: a 2-element order covering both
nodes exactly once. -/
theorem computeExecutionOrder_total_coverage_witness :
    (idsOf cycGraph._nodes).Nodup ∧
    (∀ n ∈ cycGraph._nodes, cycGraph.getNodeById n.id = some n) ∧
    (∀ p ∈ cycGraph._nodes_by_id, p.2 ∈ cycGraph._nodes ∧ p.2.id = p.1) ∧
    cycGraph.computeExecutionOrder.length = cycGraph._nodes.length ∧
    (idsOf cycGraph.computeExecutionOrder).Perm (idsOf cycGraph._nodes) :=
  ⟨by decide, by decide, by decide,
    (computeExecutionOrder_total_coverage cycGraph (by decide) (by decide) (by decide)).1,
    (computeExecutionOrder_total_coverage cycGraph (by decide) (by decide) (by decide)).2⟩

/-! ## Counting links against connected input slots (for claim C1) -/

/-- Characterization of the connected input slots. -/
theorem connectedInputSlots_char (n : LGNode) (j : Nat) (lid : Nat) :
    (j, lid) ∈ connectedInputSlots n ↔ n.inputs.get? j = some (some lid) := by
  unfold connectedInputSlots
  rw [List.mem_filterMap]
  constructor
  · rintro ⟨⟨j2, o⟩, hmem, hmap⟩
    cases o with
    | none => simp at hmap
    | some lid2 =>
      simp only [Option.map_some'] at hmap
      have hp := Option.some.inj hmap
      injection hp with h1 h2
      subst h1
      subst h2
      have := List.mem_enum_iff_getElem?.1 hmem
      rw [List.get?_eq_getElem?]
      exact this
  · intro h
    refine ⟨(j, some lid), ?_, rfl⟩
    apply List.mem_enum_iff_getElem?.2
    rw [← List.get?_eq_getElem?]
    exact h

/-- The connected-slot count agrees with the filter count in the source's
seeding loop. -/
theorem slots_aux_length : ∀ (l : List (Option Nat)) (k : Nat),
    ((l.enumFrom k).filterMap (fun p => p.2.map (fun lid => (p.1, lid)))).length =
      (l.filter Option.isSome).length := by
  intro l
  induction l with
  | nil => intro k; rfl
  | cons o rest ih =>
    intro k
    rw [List.enumFrom_cons, List.filterMap_cons, List.filter_cons]
    cases o with
    | none => simpa using ih (k + 1)
    | some lid => simpa using ih (k + 1)

/-- connectedInputCount counts the connected input slots. -/
theorem cic_eq_slots_length (n : LGNode) :
    connectedInputCount n = (connectedInputSlots n).length := by
  unfold connectedInputCount connectedInputSlots
  rw [show n.inputs.enum = n.inputs.enumFrom 0 from rfl]
  exact (slots_aux_length n.inputs 0).symm

/-- The slot indices of the connected input slots stay in the enumeration. -/
theorem slots_fst_sublist : ∀ (l : List (Nat × Option Nat)),
    ((l.filterMap (fun p => p.2.map (fun lid => (p.1, lid)))).map Prod.fst).Sublist
      (l.map Prod.fst) := by
  intro l
  induction l with
  | nil => simp
  | cons p rest ih =>
    rw [List.filterMap_cons]
    cases hp : p.2 with
    | none =>
      rw [List.map_cons]
      exact ih.cons p.1
    | some lid =>
      rw [List.map_cons, Option.map_some', List.map_cons]
      exact ih.cons₂ p.1

/-- The slot indices of the connected input slots are distinct. -/
theorem slots_fst_nodup (n : LGNode) :
    ((connectedInputSlots n).map Prod.fst).Nodup := by
  unfold connectedInputSlots
  apply (slots_fst_sublist n.inputs.enum).nodup
  rw [List.enum_map_fst]
  exact List.nodup_range _

/-- Looking a present link up by its own id succeeds when link ids are
unique. -/
theorem linkLookup_mem_self (links : List LGLink)
    (hnd : (links.map (fun l => l.id)).Nodup) (l : LGLink) (hmem : l ∈ links) :
    linkLookup links l.id = some l := by
  induction links with
  | nil => cases hmem
  | cons a rest ih =>
    rw [List.map_cons] at hnd
    have hnd2 := List.nodup_cons.1 hnd
    unfold linkLookup
    rcases List.mem_cons.1 hmem with rfl | hm
    · rw [List.find?_cons_of_pos _ (by simp)]
    · have hne : a.id ≠ l.id := by
        intro he
        exact hnd2.1 (he ▸ List.mem_map.2 ⟨l, hm, rfl⟩)
      rw [List.find?_cons_of_neg _ (by simp [hne])]
      exact ih hnd2.2 hm

/-- What a successful link lookup returns. -/
theorem linkLookup_char (links : List LGLink) (lid : Nat) (l : LGLink)
    (h : linkLookup links lid = some l) : l ∈ links ∧ l.id = lid := by
  unfold linkLookup at h
  refine ⟨List.mem_of_find?_eq_some h, ?_⟩
  have := List.find?_some h
  simpa using this

/-- In a list of links with unique ids, a link is determined by its id. -/
theorem link_eq_of_id_eq (links : List LGLink) (hnd : (links.map (fun l => l.id)).Nodup)
    (a b : LGLink) (ha : a ∈ links) (hb : b ∈ links) (hid : a.id = b.id) : a = b :=
  List.inj_on_of_nodup_map hnd ha hb hid

/-- A filterMap that never drops anything keeps the length. -/
theorem filterMap_length_of_forall_some {α β : Type} (f : α → Option β) :
    ∀ (l : List α), (∀ x ∈ l, (f x).isSome) → (l.filterMap f).length = l.length := by
  intro l
  induction l with
  | nil => intro _; rfl
  | cons a rest ih =>
    intro h
    rw [List.filterMap_cons]
    cases hf : f a with
    | none =>
      have := h a (List.mem_cons_self a rest)
      rw [hf] at this
      simp at this
    | some b =>
      rw [List.length_cons, List.length_cons, ih (fun x hx => h x (List.mem_cons_of_mem a hx))]

/-- The links fetched through the connected input slots of a node. -/
def slotLinks (g : LGraph) (n : LGNode) : List LGLink :=
  (connectedInputSlots n).filterMap (fun p => linkLookup g.links p.2)

/-- Every connected input slot of a live node fetches an actual link. -/
theorem slotLinks_length (g : LGraph) (hwf : WellFormedGraph g) (n : LGNode)
    (hn : n ∈ g._nodes) : (slotLinks g n).length = connectedInputCount n := by
  rw [cic_eq_slots_length]
  apply filterMap_length_of_forall_some
  intro p hp
  obtain ⟨l, hl, hlid, _, _⟩ := hwf.input_consistent n hn p hp
  rw [← hlid, linkLookup_mem_self g.links hwf.nodup_link_ids l hl]
  rfl

/-- Membership in linksTo. -/
theorem mem_linksTo (g : LGraph) (x : LGLink) (i : Int) :
    x ∈ linksTo g i ↔ x ∈ g.links ∧ x.target_id = i := by
  unfold linksTo
  rw [List.mem_filter]
  constructor
  · rintro ⟨h1, h2⟩
    exact ⟨h1, by simpa using h2⟩
  · rintro ⟨h1, h2⟩
    exact ⟨h1, by simpa using h2⟩

/-- The slot-fetched links of a node are exactly the links targeting it. -/
theorem mem_slotLinks_iff (g : LGraph) (hwf : WellFormedGraph g) (n : LGNode)
    (hn : n ∈ g._nodes) (x : LGLink) : x ∈ slotLinks g n ↔ x ∈ linksTo g n.id := by
  unfold slotLinks
  rw [List.mem_filterMap, mem_linksTo]
  constructor
  · rintro ⟨p, hp, hlook⟩
    obtain ⟨hxmem, hxid⟩ := linkLookup_char g.links p.2 x hlook
    obtain ⟨l, hl, hlid, hlt, _⟩ := hwf.input_consistent n hn p hp
    have hxl : x = l :=
      link_eq_of_id_eq g.links hwf.nodup_link_ids x l hxmem hl (by rw [hxid, hlid])
    exact ⟨hxmem, by rw [hxl, hlt]⟩
  · rintro ⟨hxmem, hxt⟩
    obtain ⟨t, ht, htid, hslot⟩ := hwf.target_consistent x hxmem
    have htn : t = n := eq_of_id_eq g._nodes hwf.nodup_node_ids t n ht hn (by rw [htid, hxt])
    refine ⟨(x.target_slot, x.id), ?_, ?_⟩
    · apply (connectedInputSlots_char n x.target_slot x.id).2
      rw [← htn]
      exact hslot
    · exact linkLookup_mem_self g.links hwf.nodup_link_ids x hxmem

/-- Two connected input slots storing the same link id are the same slot. -/
theorem slots_snd_inj (g : LGraph) (hwf : WellFormedGraph g) (n : LGNode)
    (hn : n ∈ g._nodes) : ∀ p ∈ connectedInputSlots n, ∀ q ∈ connectedInputSlots n,
    p.2 = q.2 → p.1 = q.1 := by
  intro p hp q hq he
  obtain ⟨l, hl, hlid, _, hls⟩ := hwf.input_consistent n hn p hp
  obtain ⟨l2, hl2, hlid2, _, hls2⟩ := hwf.input_consistent n hn q hq
  have hll : l = l2 :=
    link_eq_of_id_eq g.links hwf.nodup_link_ids l l2 hl hl2 (by rw [hlid, hlid2, he])
  rw [← hls, ← hls2, hll]

/-- The slot-fetched links are pairwise distinct. -/
theorem slotLinks_nodup (g : LGraph) (hwf : WellFormedGraph g) (n : LGNode)
    (hn : n ∈ g._nodes) : (slotLinks g n).Nodup := by
  have hfst : (connectedInputSlots n).Pairwise (fun p q => p.1 ≠ q.1) :=
    List.pairwise_map.1 (slots_fst_nodup n)
  have hsnd : (connectedInputSlots n).Pairwise (fun p q => p.2 ≠ q.2) := by
    apply List.Pairwise.imp_of_mem ?_ hfst
    intro p q hp hq hne he
    exact hne (slots_snd_inj g hwf n hn p hp q hq he)
  apply List.Pairwise.filterMap (fun p => linkLookup g.links p.2) ?_ hsnd
  intro p q hpq x hx y hy
  have hxc := linkLookup_char g.links p.2 x (Option.mem_def.1 hx)
  have hyc := linkLookup_char g.links q.2 y (Option.mem_def.1 hy)
  intro hxy
  rw [hxy] at hxc
  exact hpq (hxc.2 ▸ hyc.2 ▸ rfl)

/-- The links targeting a node are pairwise distinct. -/
theorem linksTo_nodup (g : LGraph) (hwf : WellFormedGraph g) (i : Int) :
    (linksTo g i).Nodup :=
  (List.filter_sublist _).nodup (List.Nodup.of_map _ hwf.nodup_link_ids)

/-- The decisive counting fact: the seeding counter of a live node equals
the number of links targeting it. -/
theorem linksTo_length_eq_cic (g : LGraph) (hwf : WellFormedGraph g) (n : LGNode)
    (hn : n ∈ g._nodes) : (linksTo g n.id).length = connectedInputCount n := by
  have hperm : (slotLinks g n).Perm (linksTo g n.id) :=
    (List.perm_ext_iff_of_nodup (slotLinks_nodup g hwf n hn) (linksTo_nodup g hwf n.id)).2
      (fun x => mem_slotLinks_iff g hwf n hn x)
  rw [← hperm.length_eq, slotLinks_length g hwf n hn]

/-- A node targeted by some link has a connected input. -/
theorem cic_pos_of_target (g : LGraph) (hwf : WellFormedGraph g) (n : LGNode)
    (hn : n ∈ g._nodes) (l : LGLink) (hl : l ∈ g.links) (ht : l.target_id = n.id) :
    connectedInputCount n ≠ 0 := by
  have hcount := linksTo_length_eq_cic g hwf n hn
  have hmem : l ∈ linksTo g n.id := (mem_linksTo g l n.id).2 ⟨hl, ht⟩
  have := List.length_pos_of_mem hmem
  omega

/-- Visiting an id carried by none of the listed links leaves the filter
unchanged. -/
theorem count_filter_cons_of_not_mem (ll : List LGLink) (x : Nat)
    (h : ∀ l ∈ ll, l.id ≠ x) (vis : List Nat) :
    ll.filter (fun l => decide (l.id ∉ x :: vis)) = ll.filter (fun l => decide (l.id ∉ vis)) := by
  apply List.filter_congr
  intro l hl
  rw [decide_eq_decide]
  constructor
  · intro hnm hm
    exact hnm (List.mem_cons_of_mem x hm)
  · intro hnm hm
    rcases List.mem_cons.1 hm with h1 | h2
    · exact h l hl h1
    · exact hnm h2

/-- Visiting the id of a present, unvisited link removes exactly that link
from the filter, when link ids are unique. -/
theorem count_filter_cons_of_mem (ll : List LGLink)
    (hnd : (ll.map (fun l => l.id)).Nodup) (l : LGLink) (hl : l ∈ ll) (vis : List Nat)
    (hnv : l.id ∉ vis) :
    (ll.filter (fun x => decide (x.id ∉ l.id :: vis))).length + 1 =
      (ll.filter (fun x => decide (x.id ∉ vis))).length := by
  induction ll with
  | nil => cases hl
  | cons a rest ih =>
    rw [List.map_cons] at hnd
    have hnd2 := List.nodup_cons.1 hnd
    rw [List.filter_cons, List.filter_cons]
    rcases List.mem_cons.1 hl with heq | hm
    · have hid : l.id = a.id := by rw [heq]
      rw [hid] at hnv ⊢
      have hd : ¬ (a.id ∉ a.id :: vis) := by simp
      rw [if_neg (by rw [decide_eq_false hd]; exact Bool.false_ne_true),
        if_pos (decide_eq_true hnv), List.length_cons]
      have hrest : ∀ x ∈ rest, x.id ≠ a.id := by
        intro x hx he
        exact hnd2.1 (he ▸ List.mem_map.2 ⟨x, hx, rfl⟩)
      rw [count_filter_cons_of_not_mem rest a.id hrest vis]
    · have hane : a.id ≠ l.id := by
        intro he
        exact hnd2.1 (he ▸ List.mem_map.2 ⟨l, hm, rfl⟩)
      by_cases h2 : a.id ∉ vis
      · have h1 : a.id ∉ l.id :: vis := by
          intro hc
          rcases List.mem_cons.1 hc with hc1 | hc2
          · exact hane hc1
          · exact h2 hc2
        rw [if_pos (decide_eq_true h1), if_pos (decide_eq_true h2),
          List.length_cons, List.length_cons]
        rw [← ih hnd2.2 hm]
      · have h1 : ¬ a.id ∉ l.id :: vis := by
          intro hc
          exact absurd (fun hm2 => hc (List.mem_cons_of_mem _ hm2)) (by simpa using h2)
        rw [if_neg (by rw [decide_eq_false h1]; exact Bool.false_ne_true),
          if_neg (by rw [decide_eq_false (by simpa using h2)]; exact Bool.false_ne_true)]
        exact ih hnd2.2 hm

/-- An empty unvisited filter means every listed link is visited. -/
theorem all_visited_of_count_zero (ll : List LGLink) (vis : List Nat)
    (h : (ll.filter (fun l => decide (l.id ∉ vis))).length = 0) :
    ∀ l ∈ ll, l.id ∈ vis := by
  intro l hl
  by_contra hc
  have hmem : l ∈ ll.filter (fun x => decide (x.id ∉ vis)) :=
    List.mem_filter.2 ⟨hl, decide_eq_true hc⟩
  have := List.length_pos_of_mem hmem
  omega

/-- The ids of the links targeting a node are unique. -/
theorem linksTo_ids_nodup (g : LGraph) (hwf : WellFormedGraph g) (i : Int) :
    ((linksTo g i).map (fun l => l.id)).Nodup := by
  have hsub : (linksTo g i).Sublist g.links := List.filter_sublist _
  exact (hsub.map (fun l : LGLink => l.id)).nodup hwf.nodup_link_ids

/-- Visiting a link that targets elsewhere leaves a node's unvisited
filter unchanged. -/
theorem linksTo_count_other (g : LGraph) (hwf : WellFormedGraph g) (mid : Int)
    (link : LGLink) (hlmem : link ∈ g.links) (hdiff : mid ≠ link.target_id)
    (vis : List Nat) :
    (linksTo g mid).filter (fun l => decide (l.id ∉ link.id :: vis)) =
      (linksTo g mid).filter (fun l => decide (l.id ∉ vis)) := by
  apply count_filter_cons_of_not_mem
  intro l hl he
  have hl2 := (mem_linksTo g l mid).1 hl
  have hll : l = link :=
    link_eq_of_id_eq g.links hwf.nodup_link_ids l link hl2.1 hlmem he
  rw [hll] at hl2
  exact hdiff hl2.2.symm

/-- processLink marks every link with the processed id as visited. -/
theorem processLink_visits (g : LGraph) (st : KState) (lid : Nat) :
    ∀ l ∈ g.links, l.id = lid → l.id ∈ (processLink g st lid).visited := by
  intro l hl hid
  unfold processLink
  cases hfind : linkLookup g.links lid with
  | none =>
    have := List.find?_eq_none.1 hfind l hl
    simp [hid] at this
  | some link =>
    dsimp only
    have hlid2 := (linkLookup_char g.links lid link hfind).2
    by_cases hv : link.id ∈ st.visited
    · rw [if_pos hv]
      rw [hid, ← hlid2]
      exact hv
    · rw [if_neg hv]
      cases hby : g.getNodeById link.target_id with
      | none =>
        show l.id ∈ link.id :: st.visited
        rw [hid, ← hlid2]
        exact List.mem_cons_self _ _
      | some target =>
        dsimp only
        cases hrem : remLookup st.remaining target.id with
        | none =>
          show l.id ∈ link.id :: st.visited
          rw [hid, ← hlid2]
          exact List.mem_cons_self _ _
        | some v =>
          dsimp only
          by_cases hz : v - 1 = 0
          · rw [if_pos hz]
            show l.id ∈ link.id :: st.visited
            rw [hid, ← hlid2]
            exact List.mem_cons_self _ _
          · rw [if_neg hz]
            show l.id ∈ link.id :: st.visited
            rw [hid, ← hlid2]
            exact List.mem_cons_self _ _

/-- processLink only adds to the visited set. -/
theorem processLink_visited_mono (g : LGraph) (st : KState) (lid : Nat) :
    ∀ x ∈ st.visited, x ∈ (processLink g st lid).visited := by
  intro x hx
  unfold processLink
  cases hfind : linkLookup g.links lid with
  | none => exact hx
  | some link =>
    dsimp only
    by_cases hv : link.id ∈ st.visited
    · rw [if_pos hv]
      exact hx
    · rw [if_neg hv]
      cases hby : g.getNodeById link.target_id with
      | none => exact List.mem_cons_of_mem _ hx
      | some target =>
        dsimp only
        cases hrem : remLookup st.remaining target.id with
        | none => exact List.mem_cons_of_mem _ hx
        | some v =>
          dsimp only
          by_cases hz : v - 1 = 0
          · rw [if_pos hz]
            exact List.mem_cons_of_mem _ hx
          · rw [if_neg hz]
            exact List.mem_cons_of_mem _ hx

/-- The fold over a node's output link ids visits every processed id and
keeps every already visited one. -/
theorem foldl_processLink_visits (g : LGraph) :
    ∀ (lids : List Nat) (st : KState),
    (∀ x ∈ st.visited, x ∈ (lids.foldl (processLink g) st).visited) ∧
    (∀ lid ∈ lids, ∀ l ∈ g.links, l.id = lid →
      l.id ∈ (lids.foldl (processLink g) st).visited) := by
  intro lids
  induction lids with
  | nil => intro st; exact ⟨fun x hx => hx, fun lid h => absurd h (List.not_mem_nil lid)⟩
  | cons y rest ih =>
    intro st
    constructor
    · intro x hx
      exact (ih (processLink g st y)).1 x (processLink_visited_mono g st y x hx)
    · intro lid hlid l hl hid
      rcases List.mem_cons.1 hlid with rfl | hm
      · exact (ih (processLink g st lid)).1 l.id (processLink_visits g st lid l hl hid)
      · exact (ih (processLink g st y)).2 lid hm l hl hid

/-- Ids only grow when a node is enqueued. -/
theorem ids_append_mono (L S : List LGNode) (t : LGNode) (i : Int)
    (h : i ∈ idsOf (L ++ S)) : i ∈ idsOf (L ++ (S ++ [t]))  := by
  unfold idsOf at h ⊢
  simp only [List.map_append, List.mem_append] at h ⊢
  rcases h with h1 | h2
  · exact Or.inl h1
  · exact Or.inr (Or.inl h2)

/-- The enqueued node's id is present. -/
theorem ids_append_target (L S : List LGNode) (t : LGNode) :
    t.id ∈ idsOf (L ++ (S ++ [t])) := by
  unfold idsOf
  simp

/-- The inner invariant while the outputs of the freshly popped node nd
are being processed: the visited set is sound, and complete except
possibly for nd's own outgoing links; the remaining counters hold exactly
the number of unvisited incoming links; every processed or queued node has
all incoming links visited; L is topologically ordered by position; and a
node with no (remaining) incoming links has been queued. -/
structure MidInv (g : LGraph) (nd : LGNode) (st : KState) : Prop where
  nInL : nd.id ∈ idsOf st.L
  vsound : ∀ l ∈ g.links, l.id ∈ st.visited → l.origin_id ∈ idsOf st.L
  vcomplete : ∀ l ∈ g.links, l.origin_id ∈ idsOf st.L → l.origin_id ≠ nd.id → l.id ∈ st.visited
  rchar : ∀ n ∈ g._nodes, connectedInputCount n ≠ 0 →
    remLookup st.remaining n.id =
      some (((linksTo g n.id).filter (fun l => decide (l.id ∉ st.visited))).length : Int)
  ready : ∀ n ∈ st.L ++ st.S, ∀ l ∈ linksTo g n.id, l.id ∈ st.visited
  ordered : ∀ l ∈ g.links, ∀ j t, st.L.get? j = some t → t.id = l.target_id →
    ∃ i o, i < j ∧ st.L.get? i = some o ∧ o.id = l.origin_id
  seeded : ∀ n ∈ g._nodes, connectedInputCount n = 0 → n.id ∈ idsOf (st.L ++ st.S)
  fired : ∀ n ∈ g._nodes, connectedInputCount n ≠ 0 →
    ((linksTo g n.id).filter (fun l => decide (l.id ∉ st.visited))).length = 0 →
    n.id ∈ idsOf (st.L ++ st.S)

/-- processLink preserves the inner invariant, for a link id listed in
nd's output slots. -/
theorem processLink_midInv (g : LGraph) (hwf : WellFormedGraph g) (nd : LGNode)
    (st : KState) (lid : Nat)
    (hlid : ∀ l ∈ g.links, l.id = lid → l.origin_id = nd.id)
    (h : MidInv g nd st) : MidInv g nd (processLink g st lid) := by
  unfold processLink
  cases hfind : linkLookup g.links lid with
  | none => exact h
  | some link =>
    dsimp only
    obtain ⟨hlmem, hlid2⟩ := linkLookup_char g.links lid link hfind
    have horigin : link.origin_id = nd.id := hlid link hlmem hlid2
    by_cases hv : link.id ∈ st.visited
    · rw [if_pos hv]
      exact h
    · rw [if_neg hv]
      obtain ⟨t, ht, htid, hslot⟩ := hwf.target_consistent link hlmem
      have hbyid : g.getNodeById link.target_id = some t := by
        have h0 := hwf.byId_complete t ht
        rw [htid] at h0
        exact h0
      cases hby : g.getNodeById link.target_id with
      | none => rw [hby] at hbyid; cases hbyid
      | some target =>
        dsimp only
        have htt : target = t := by
          rw [hby] at hbyid
          exact Option.some.inj hbyid
        subst htt
        have hcic : connectedInputCount target ≠ 0 :=
          cic_pos_of_target g hwf target ht link hlmem htid.symm
        have hrc := h.rchar target ht hcic
        cases hrem2 : remLookup st.remaining target.id with
        | none => rw [hrem2] at hrc; cases hrc
        | some v =>
          dsimp only
          rw [hrem2] at hrc
          have hveq : v = (((linksTo g target.id).filter
              (fun l => decide (l.id ∉ st.visited))).length : Int) := Option.some.inj hrc
          have hlinkTo : link ∈ linksTo g target.id :=
            (mem_linksTo g link target.id).2 ⟨hlmem, htid.symm⟩
          have hdecr : ((linksTo g target.id).filter
                (fun x => decide (x.id ∉ link.id :: st.visited))).length + 1 =
              ((linksTo g target.id).filter (fun x => decide (x.id ∉ st.visited))).length :=
            count_filter_cons_of_mem (linksTo g target.id)
              (linksTo_ids_nodup g hwf target.id) link hlinkTo st.visited hv
          have hvsound2 : ∀ l ∈ g.links, l.id ∈ link.id :: st.visited →
              l.origin_id ∈ idsOf st.L := by
            intro l hl hmem
            rcases List.mem_cons.1 hmem with h1 | h2
            · have hll : l = link :=
                link_eq_of_id_eq g.links hwf.nodup_link_ids l link hl hlmem h1
              rw [hll, horigin]
              exact h.nInL
            · exact h.vsound l hl h2
          have hvcomplete2 : ∀ l ∈ g.links, l.origin_id ∈ idsOf st.L →
              l.origin_id ≠ nd.id → l.id ∈ link.id :: st.visited :=
            fun l hl h1 h2 => List.mem_cons_of_mem _ (h.vcomplete l hl h1 h2)
          have hrchar2 : ∀ m ∈ g._nodes, connectedInputCount m ≠ 0 →
              remLookup (remStore st.remaining target.id (v - 1)) m.id =
                some (((linksTo g m.id).filter
                  (fun l => decide (l.id ∉ link.id :: st.visited))).length : Int) := by
            intro m hm hmcic
            by_cases hmt : m.id = target.id
            · rw [hmt, remLookup_remStore_self]
              congr 1
              omega
            · have hdiff : m.id ≠ link.target_id := by
                rw [← htid]
                exact hmt
              rw [remLookup_remStore_ne _ _ _ _ hmt, h.rchar m hm hmcic,
                linksTo_count_other g hwf m.id link hlmem hdiff st.visited]
          have hready2 : ∀ x ∈ st.L ++ st.S, ∀ l2 ∈ linksTo g x.id,
              l2.id ∈ link.id :: st.visited :=
            fun x hx l2 hl2 => List.mem_cons_of_mem _ (h.ready x hx l2 hl2)
          by_cases hz : v - 1 = 0
          · rw [if_pos hz]
            have htargetAll : ∀ l2 ∈ linksTo g target.id, l2.id ∈ link.id :: st.visited := by
              apply all_visited_of_count_zero
              omega
            refine ⟨h.nInL, hvsound2, hvcomplete2, hrchar2, ?_, h.ordered, ?_, ?_⟩
            · intro x hx l2 hl2
              rcases List.mem_append.1 hx with hx1 | hx2
              · exact hready2 x (List.mem_append.2 (Or.inl hx1)) l2 hl2
              · rcases List.mem_append.1 hx2 with hx3 | hx4
                · exact hready2 x (List.mem_append.2 (Or.inr hx3)) l2 hl2
                · have hxt : x = target := List.mem_singleton.1 hx4
                  rw [hxt] at hl2
                  exact htargetAll l2 hl2
            · intro m hm hc0
              exact ids_append_mono _ _ _ _ (h.seeded m hm hc0)
            · intro m hm hmcic hm0
              by_cases hmt : m.id = target.id
              · rw [hmt]
                exact ids_append_target _ _ _
              · have hdiff : m.id ≠ link.target_id := by
                  rw [← htid]
                  exact hmt
                rw [linksTo_count_other g hwf m.id link hlmem hdiff st.visited] at hm0
                exact ids_append_mono _ _ _ _ (h.fired m hm hmcic hm0)
          · rw [if_neg hz]
            refine ⟨h.nInL, hvsound2, hvcomplete2, hrchar2, ?_, h.ordered, ?_, ?_⟩
            · intro x hx l2 hl2
              exact hready2 x hx l2 hl2
            · intro m hm hc0
              exact h.seeded m hm hc0
            · intro m hm hmcic hm0
              by_cases hmt : m.id = target.id
              · exfalso
                rw [hmt] at hm0
                rw [hm0] at hdecr
                omega
              · have hdiff : m.id ≠ link.target_id := by
                  rw [← htid]
                  exact hmt
                rw [linksTo_count_other g hwf m.id link hlmem hdiff st.visited] at hm0
                exact h.fired m hm hmcic hm0

/-- The fold over nd's output link ids preserves the inner invariant. -/
theorem foldl_processLink_midInv (g : LGraph) (hwf : WellFormedGraph g) (nd : LGNode) :
    ∀ (lids : List Nat) (st : KState),
    (∀ lid ∈ lids, ∀ l ∈ g.links, l.id = lid → l.origin_id = nd.id) →
    MidInv g nd st → MidInv g nd (lids.foldl (processLink g) st) := by
  intro lids
  induction lids with
  | nil => intro st _ h; exact h
  | cons x rest ih =>
    intro st hlids h
    exact ih (processLink g st x)
      (fun lid hl => hlids lid (List.mem_cons_of_mem x hl))
      (processLink_midInv g hwf nd st x
        (hlids x (List.mem_cons_self x rest)) h)

/-- processLink never touches the ordered result L. -/
theorem processLink_L (g : LGraph) (st : KState) (lid : Nat) :
    (processLink g st lid).L = st.L := by
  unfold processLink
  cases hfind : linkLookup g.links lid with
  | none => rfl
  | some link =>
    dsimp only
    by_cases hv : link.id ∈ st.visited
    · rw [if_pos hv]
    · rw [if_neg hv]
      cases hby : g.getNodeById link.target_id with
      | none => rfl
      | some target =>
        dsimp only
        cases hrem : remLookup st.remaining target.id with
        | none => rfl
        | some v =>
          dsimp only
          by_cases hz : v - 1 = 0
          · rw [if_pos hz]
          · rw [if_neg hz]

/-- The output fold never touches L. -/
theorem foldl_processLink_L (g : LGraph) :
    ∀ (lids : List Nat) (st : KState), (lids.foldl (processLink g) st).L = st.L := by
  intro lids
  induction lids with
  | nil => intro st; rfl
  | cons x rest ih =>
    intro st
    rw [List.foldl_cons, ih, processLink_L]

/-- The invariant carried between iterations of the while loop: a link is
visited exactly when its origin has been processed; remaining counters
hold the exact number of unvisited incoming links; processed and queued
nodes have all incoming links visited; a node placed in L is preceded by
the origin of every link targeting it; and every node whose incoming
links are all visited (in particular every node without connected inputs)
has been processed or queued. -/
structure WfInv (g : LGraph) (st : KState) : Prop where
  vchar : ∀ l ∈ g.links, (l.id ∈ st.visited ↔ l.origin_id ∈ idsOf st.L)
  rchar : ∀ n ∈ g._nodes, connectedInputCount n ≠ 0 →
    remLookup st.remaining n.id =
      some (((linksTo g n.id).filter (fun l => decide (l.id ∉ st.visited))).length : Int)
  ready : ∀ n ∈ st.L ++ st.S, ∀ l ∈ linksTo g n.id, l.id ∈ st.visited
  ordered : ∀ l ∈ g.links, ∀ j t, st.L.get? j = some t → t.id = l.target_id →
    ∃ i o, i < j ∧ st.L.get? i = some o ∧ o.id = l.origin_id
  seeded : ∀ n ∈ g._nodes, connectedInputCount n = 0 → n.id ∈ idsOf (st.L ++ st.S)
  fired : ∀ n ∈ g._nodes, connectedInputCount n ≠ 0 →
    ((linksTo g n.id).filter (fun l => decide (l.id ∉ st.visited))).length = 0 →
    n.id ∈ idsOf (st.L ++ st.S)

/-- One loop iteration preserves the while-loop invariant. -/
theorem kahnStep_wfInv (g : LGraph) (hwf : WellFormedGraph g) (st : KState)
    (n : LGNode) (rest : List LGNode) (hS : st.S = n :: rest)
    (hp : PermInv g st) (h : WfInv g st) : WfInv g (kahnStep g st n rest) := by
  have hnLS : n ∈ st.L ++ st.S := by
    rw [hS]
    exact List.mem_append.2 (Or.inr (List.mem_cons_self n rest))
  have hn : n ∈ g._nodes := hp.sub n hnLS
  have heq : (st.L ++ [n]) ++ rest = st.L ++ st.S := by
    rw [hS, List.append_assoc]
    rfl
  have hlids : ∀ lid ∈ n.outputs.flatten, ∀ l ∈ g.links, l.id = lid →
      l.origin_id = n.id := by
    intro lid hlid l hl he
    obtain ⟨s, hs, hmem⟩ := List.mem_flatten.1 hlid
    exact hwf.output_sound n hn s hs lid hmem l hl he
  have hmid1 : MidInv g n
      { st with S := rest, L := st.L ++ [n], M := st.M.filter (fun m => m.id != n.id) } := by
    refine ⟨?_, ?_, ?_, ?_, ?_, ?_, ?_, ?_⟩
    · show n.id ∈ idsOf (st.L ++ [n])
      unfold idsOf
      rw [List.map_append]
      exact List.mem_append.2 (Or.inr (by simp))
    · intro l hl hv
      show l.origin_id ∈ idsOf (st.L ++ [n])
      have h0 := (h.vchar l hl).1 hv
      unfold idsOf at h0 ⊢
      rw [List.map_append]
      exact List.mem_append.2 (Or.inl h0)
    · intro l hl h1 h2
      show l.id ∈ st.visited
      apply (h.vchar l hl).2
      have h3 : l.origin_id ∈ idsOf (st.L ++ [n]) := h1
      unfold idsOf at h3 ⊢
      rw [List.map_append] at h3
      rcases List.mem_append.1 h3 with h4 | h5
      · exact h4
      · exfalso
        exact h2 (by simpa using h5)
    · intro m hm hc
      exact h.rchar m hm hc
    · intro x hx l hl
      show l.id ∈ st.visited
      have hx2 : x ∈ st.L ++ st.S := by
        rw [← heq]
        exact hx
      exact h.ready x hx2 l hl
    · intro l hl j t hget htid
      show ∃ i o, i < j ∧ (st.L ++ [n]).get? i = some o ∧ o.id = l.origin_id
      rcases Nat.lt_trichotomy j st.L.length with hlt | hcs
      · have hget2 : st.L.get? j = some t := by
          rw [← List.get?_append hlt]
          exact hget
        obtain ⟨i, o, hij, hio, hoid⟩ := h.ordered l hl j t hget2 htid
        refine ⟨i, o, hij, ?_, hoid⟩
        rw [List.get?_append (lt_trans hij hlt)]
        exact hio
      · rcases hcs with hj | hgt
        · have htn : t = n := by
            rw [List.get?_append_right (le_of_eq hj.symm), hj, Nat.sub_self] at hget
            exact (Option.some.inj hget).symm
          have hlt2 : l ∈ linksTo g n.id := by
            apply (mem_linksTo g l n.id).2
            refine ⟨hl, ?_⟩
            rw [← htid, htn]
          have hvis := h.ready n hnLS l hlt2
          have horig := (h.vchar l hl).1 hvis
          unfold idsOf at horig
          obtain ⟨o, hoL, hoid⟩ := List.mem_map.1 horig
          obtain ⟨i, hio⟩ := List.get?_of_mem hoL
          have hilen : i < st.L.length := by
            by_contra hc
            rw [List.get?_eq_none.2 (Nat.le_of_not_lt hc)] at hio
            cases hio
          refine ⟨i, o, ?_, ?_, hoid⟩
          · omega
          · rw [List.get?_append hilen]
            exact hio
        · exfalso
          have hnone : (st.L ++ [n]).get? j = none := by
            apply List.get?_eq_none.2
            rw [List.length_append]
            simpa using hgt
          rw [hnone] at hget
          cases hget
    · intro m hm hc
      show m.id ∈ idsOf ((st.L ++ [n]) ++ rest)
      rw [heq]
      exact h.seeded m hm hc
    · intro m hm hc h0
      show m.id ∈ idsOf ((st.L ++ [n]) ++ rest)
      rw [heq]
      exact h.fired m hm hc h0
  have hmid2 : MidInv g n (kahnStep g st n rest) := by
    show MidInv g n (n.outputs.flatten.foldl (processLink g)
      { st with S := rest, L := st.L ++ [n], M := st.M.filter (fun m => m.id != n.id) })
    exact foldl_processLink_midInv g hwf n n.outputs.flatten _ hlids hmid1
  have hL2 : (kahnStep g st n rest).L = st.L ++ [n] := by
    show (n.outputs.flatten.foldl (processLink g)
      { st with S := rest, L := st.L ++ [n], M := st.M.filter (fun m => m.id != n.id) }).L = _
    rw [foldl_processLink_L]
  refine ⟨?_, hmid2.rchar, hmid2.ready, hmid2.ordered, hmid2.seeded, hmid2.fired⟩
  intro l hl
  constructor
  · intro hv
    exact hmid2.vsound l hl hv
  · intro ho
    rw [hL2] at ho
    unfold idsOf at ho
    rw [List.map_append] at ho
    rcases List.mem_append.1 ho with h1 | h2
    · have hvis : l.id ∈ st.visited := (h.vchar l hl).2 h1
      show l.id ∈ (n.outputs.flatten.foldl (processLink g)
        { st with S := rest, L := st.L ++ [n], M := st.M.filter (fun m => m.id != n.id) }).visited
      exact (foldl_processLink_visits g n.outputs.flatten _).1 l.id hvis
    · have hon : l.origin_id = n.id := by simpa using h2
      obtain ⟨o, honodes, hoid, s, hs, hmem⟩ := hwf.origin_listed l hl
      have hoeq : o = n :=
        eq_of_id_eq g._nodes hwf.nodup_node_ids o n honodes hn (hoid.trans hon)
      have hflat : l.id ∈ n.outputs.flatten := by
        rw [← hoeq]
        exact List.mem_flatten.2 ⟨s, hs, hmem⟩
      show l.id ∈ (n.outputs.flatten.foldl (processLink g)
        { st with S := rest, L := st.L ++ [n], M := st.M.filter (fun m => m.id != n.id) }).visited
      exact (foldl_processLink_visits g n.outputs.flatten _).2 l.id hflat l hl rfl

/-- The seeding fold leaves counters of unlisted ids untouched. -/
theorem initFold_rem_frozen : ∀ (l : List LGNode) (st : KState) (i : Int),
    (∀ x ∈ l, x.id ≠ i) →
    remLookup (l.foldl initStep st).remaining i = remLookup st.remaining i := by
  intro l
  induction l with
  | nil => intro st i _; rfl
  | cons m rest ih =>
    intro st i hne
    rw [List.foldl_cons, ih (initStep st m) i (fun x hx => hne x (List.mem_cons_of_mem m hx))]
    rw [initStep_remaining]
    by_cases hc : connectedInputCount m = 0
    · rw [if_pos hc]
    · rw [if_neg hc]
      exact remLookup_remStore_ne st.remaining m.id i _
        (fun he => hne m (List.mem_cons_self m rest) he.symm)

/-- After the seeding fold every listed node with connected inputs carries
its connected-input count, given distinct ids. -/
theorem initFold_rem_present : ∀ (l : List LGNode) (st : KState),
    (idsOf l).Nodup → ∀ n ∈ l, connectedInputCount n ≠ 0 →
    remLookup (l.foldl initStep st).remaining n.id = some ((connectedInputCount n : Int)) := by
  intro l
  induction l with
  | nil => intro st _ n hn; cases hn
  | cons m rest ih =>
    intro st hnodup n hn hc
    have hx : idsOf (m :: rest) = m.id :: idsOf rest := rfl
    rw [hx] at hnodup
    have hnd := List.nodup_cons.1 hnodup
    rw [List.foldl_cons]
    rcases List.mem_cons.1 hn with heq | hmem
    · subst heq
      have hfr : ∀ x ∈ rest, x.id ≠ n.id := by
        intro x hxr he
        exact hnd.1 (he ▸ List.mem_map.2 ⟨x, hxr, rfl⟩)
      rw [initFold_rem_frozen rest (initStep st n) n.id hfr, initStep_remaining,
        if_neg hc, remLookup_remStore_self]
    · exact ih (initStep st m) hnd.2 n hmem hc

/-- The seeded state satisfies the while-loop invariant. -/
theorem initKahn_wfInv (g : LGraph) (hwf : WellFormedGraph g) : WfInv g (initKahn g) := by
  have hL : (initKahn g).L = [] := initFold_L g._nodes _
  have hvis : (initKahn g).visited = [] := initFold_visited g._nodes _
  have hS : (initKahn g).S =
      g._nodes.filter (fun n => decide (connectedInputCount n = 0)) := by
    have h0 := initFold_S g._nodes { L := [], S := [], M := [], visited := [], remaining := [] }
    simpa using h0
  have hfilterAll : ∀ i : Int,
      (linksTo g i).filter (fun l => decide (l.id ∉ ([] : List Nat))) = linksTo g i := by
    intro i
    exact List.filter_eq_self.2 (fun a _ => decide_eq_true (by simp))
  refine ⟨?_, ?_, ?_, ?_, ?_, ?_⟩
  · intro l hl
    rw [hL, hvis]
    constructor
    · intro hv
      cases hv
    · intro ho
      exfalso
      have : idsOf ([] : List LGNode) = [] := rfl
      rw [this] at ho
      cases ho
  · intro n hn hc
    rw [hvis, hfilterAll, linksTo_length_eq_cic g hwf n hn]
    exact initFold_rem_present g._nodes _ hwf.nodup_node_ids n hn hc
  · intro n hnLS l hl
    exfalso
    rw [hL, hS] at hnLS
    simp only [List.nil_append] at hnLS
    obtain ⟨hnn, hpred⟩ := List.mem_filter.1 hnLS
    have hc0 : connectedInputCount n = 0 := of_decide_eq_true hpred
    have hlen := linksTo_length_eq_cic g hwf n hnn
    rw [hc0] at hlen
    have := List.length_pos_of_mem hl
    omega
  · intro l hl j t hget htid
    exfalso
    rw [hL] at hget
    cases hget
  · intro n hn hc
    rw [hL, hS]
    simp only [List.nil_append]
    unfold idsOf
    exact List.mem_map.2 ⟨n, List.mem_filter.2 ⟨hn, decide_eq_true hc⟩, rfl⟩
  · intro n hn hc h0
    exfalso
    rw [hvis, hfilterAll, linksTo_length_eq_cic g hwf n hn] at h0
    exact hc h0

/-- Both invariants hold when the while loop ends. -/
theorem kahnFinal_wf (g : LGraph) (hwf : WellFormedGraph g) :
    WfInv g (kahnFinal g) ∧ PermInv g (kahnFinal g) := by
  have hrep : NodeRep g := ⟨hwf.nodup_node_ids, hwf.byId_complete, hwf.byId_sound⟩
  exact kahnLoopFuel_inv g (fun st => WfInv g st ∧ PermInv g st)
    (fun st n rest hS h =>
      ⟨kahnStep_wfInv g hwf st n rest hS h.2 h.1, kahnStep_permInv g hrep st n rest hS h.2⟩)
    ((initKahn g).S.length + g.links.length + 1) (initKahn g)
    ⟨initKahn_wfInv g hwf, initKahn_permInv g hrep⟩

/-- A finite nonempty set of ids in which every id has a predecessor by a
link edge contains a cycle. -/
theorem exists_cycle_of_forall_pred (g : LGraph) (S : Finset Int) (hne : S.Nonempty)
    (hpred : ∀ i ∈ S, ∃ j ∈ S, edgeRel g j i) :
    ∃ a, Relation.TransGen (edgeRel g) a a := by
  classical
  obtain ⟨a0, ha0⟩ := hne
  have hch : ∀ i : Int, ∃ j : Int, i ∈ S → (j ∈ S ∧ edgeRel g j i) := by
    intro i
    by_cases hi : i ∈ S
    · obtain ⟨j, hj, he⟩ := hpred i hi
      exact ⟨j, fun _ => ⟨hj, he⟩⟩
    · exact ⟨0, fun h => absurd h hi⟩
  choose p hp using hch
  have hfS : ∀ k : Nat, p^[k] a0 ∈ S := by
    intro k
    induction k with
    | zero => exact ha0
    | succ k ih =>
      rw [Function.iterate_succ_apply']
      exact (hp (p^[k] a0) ih).1
  have hstep : ∀ k : Nat, edgeRel g (p^[k + 1] a0) (p^[k] a0) := by
    intro k
    rw [Function.iterate_succ_apply']
    exact (hp (p^[k] a0) (hfS k)).2
  have hchain : ∀ d k : Nat, Relation.TransGen (edgeRel g) (p^[k + (d + 1)] a0) (p^[k] a0) := by
    intro d
    induction d with
    | zero => intro k; exact Relation.TransGen.single (hstep k)
    | succ d ih =>
      intro k
      exact Relation.TransGen.head (hstep (k + (d + 1))) (ih k)
  have hmaps : ∀ k ∈ Finset.range (S.card + 1), p^[k] a0 ∈ S := fun k _ => hfS k
  have hcard : S.card < (Finset.range (S.card + 1)).card := by simp
  obtain ⟨x, hx, y, hy, hxy, hfe⟩ :=
    Finset.exists_ne_map_eq_of_card_lt_of_maps_to hcard hmaps
  rcases Nat.lt_trichotomy x y with hlt | hcs
  · obtain ⟨d, hd⟩ : ∃ d, y = x + (d + 1) := ⟨y - x - 1, by omega⟩
    refine ⟨p^[x] a0, ?_⟩
    have hc := hchain d x
    rw [← hd, ← hfe] at hc
    exact hc
  · rcases hcs with heq | hgt
    · exact absurd heq hxy
    · obtain ⟨d, hd⟩ : ∃ d, x = y + (d + 1) := ⟨x - y - 1, by omega⟩
      refine ⟨p^[y] a0, ?_⟩
      have hc := hchain d y
      rw [← hd, hfe] at hc
      exact hc

/-- On a well-formed acyclic graph the while loop processes every node:
the residual pending map M is empty when the loop ends. -/
theorem kahnFinal_M_nil (g : LGraph) (hwf : WellFormedGraph g)
    (hacyc : AcyclicGraph g) : (kahnFinal g).M = [] := by
  by_contra hne
  obtain ⟨hwfInv, hpInv⟩ := kahnFinal_wf g hwf
  have hSnil := kahnFinal_S_nil g
  obtain ⟨m0, hm0⟩ := List.exists_mem_of_ne_nil _ hne
  have key : ∀ i ∈ (idsOf (kahnFinal g).M).toFinset,
      ∃ j ∈ (idsOf (kahnFinal g).M).toFinset, edgeRel g j i := by
    intro i hi
    rw [List.mem_toFinset] at hi
    have hi2 : i ∈ (kahnFinal g).M.map (fun n => n.id) := hi
    obtain ⟨m, hmM, hmid⟩ := List.mem_map.1 hi2
    have hmM2 := hmM
    rw [hpInv.mchar] at hmM2
    obtain ⟨hmnodes, hmpred⟩ := List.mem_filter.1 hmM2
    have hmnotL : m.id ∉ idsOf (kahnFinal g).L := of_decide_eq_true hmpred
    have hcic : connectedInputCount m ≠ 0 := by
      intro hc0
      apply hmnotL
      have h1 := hwfInv.seeded m hmnodes hc0
      rw [hSnil, List.append_nil] at h1
      exact h1
    have hflen : ((linksTo g m.id).filter
        (fun l => decide (l.id ∉ (kahnFinal g).visited))).length ≠ 0 := by
      intro h0
      apply hmnotL
      have h1 := hwfInv.fired m hmnodes hcic h0
      rw [hSnil, List.append_nil] at h1
      exact h1
    have hfne : (linksTo g m.id).filter
        (fun l => decide (l.id ∉ (kahnFinal g).visited)) ≠ [] := by
      intro h0
      rw [h0] at hflen
      exact hflen rfl
    obtain ⟨l, hlmem⟩ := List.exists_mem_of_ne_nil _ hfne
    obtain ⟨hlin, hlv⟩ := List.mem_filter.1 hlmem
    have hlnv : l.id ∉ (kahnFinal g).visited := of_decide_eq_true hlv
    have hlg : l ∈ g.links := ((mem_linksTo g l m.id).1 hlin).1
    have hltm : l.target_id = m.id := ((mem_linksTo g l m.id).1 hlin).2
    have honotL : l.origin_id ∉ idsOf (kahnFinal g).L :=
      fun hin => hlnv ((hwfInv.vchar l hlg).2 hin)
    obtain ⟨o, honodes, hoid, _⟩ := hwf.origin_listed l hlg
    have hoM : o ∈ (kahnFinal g).M := by
      rw [hpInv.mchar]
      refine List.mem_filter.2 ⟨honodes, decide_eq_true ?_⟩
      rw [hoid]
      exact honotL
    refine ⟨o.id, ?_, ?_⟩
    · rw [List.mem_toFinset]
      exact List.mem_map.2 ⟨o, hoM, rfl⟩
    · exact ⟨l, hlg, hoid.symm, hltm.trans hmid⟩
  have hne2 : (idsOf (kahnFinal g).M).toFinset.Nonempty :=
    ⟨m0.id, List.mem_toFinset.2 (List.mem_map.2 ⟨m0, hm0, rfl⟩)⟩
  obtain ⟨a, ha⟩ := exists_cycle_of_forall_pred g _ hne2 key
  exact hacyc a ha

/-- Position-wise description of the order-assignment loop: position j
holds the original node with its order field set to k + j. -/
theorem assignOrdersFrom_get? : ∀ (l : List LGNode) (k j : Nat),
    (assignOrdersFrom k l).get? j =
      (l.get? j).map (fun n => { n with order := ((k + j : Nat) : Int) }) := by
  intro l
  induction l with
  | nil => intro k j; simp [assignOrdersFrom]
  | cons n rest ih =>
    intro k j
    cases j with
    | zero => simp [assignOrdersFrom]
    | succ j' =>
      show (assignOrdersFrom (k + 1) rest).get? j' =
        (rest.get? j').map (fun n => { n with order := ((k + (j' + 1) : Nat) : Int) })
      rw [ih (k + 1) j']
      have harith : k + 1 + j' = k + (j' + 1) := by omega
      rw [harith]

/-- In a duplicate-free list, positions holding the same element agree. -/
theorem get?_inj_of_nodup {α : Type} : ∀ (xs : List α), xs.Nodup →
    ∀ (i j : Nat) (a : α), xs.get? i = some a → xs.get? j = some a → i = j := by
  intro xs
  induction xs with
  | nil => intro _ i j a hi; cases hi
  | cons x rest ih =>
    intro hnd i j a hi hj
    have hnd2 := List.nodup_cons.1 hnd
    cases i with
    | zero =>
      cases j with
      | zero => rfl
      | succ j' =>
        exfalso
        have hxa : x = a := Option.some.inj hi
        have hmem : a ∈ rest := List.get?_mem hj
        rw [hxa] at hnd2
        exact hnd2.1 hmem
    | succ i' =>
      cases j with
      | zero =>
        exfalso
        have hxa : x = a := Option.some.inj hj
        have hmem : a ∈ rest := List.get?_mem hi
        rw [hxa] at hnd2
        exact hnd2.1 hmem
      | succ j' =>
        have := ih hnd2.2 i' j' a hi hj
        omega

/-- C1: on every well-formed acyclic graph, computeExecutionOrder assigns
each node of the returned list the order equal to its position, and for
every link the node carrying the origin id receives a strictly smaller
order than the node carrying the target id — also transitively: whenever
one id feeds another through a non-empty chain of links, the feeding
node's order is strictly smaller. -/
theorem computeExecutionOrder_topological (g : LGraph)
    (hwf : WellFormedGraph g) (hacyc : AcyclicGraph g) :
    (∀ j t, g.computeExecutionOrder.get? j = some t → t.order = (j : Int)) ∧
    (∀ l ∈ g.links, ∀ i j o t,
      g.computeExecutionOrder.get? i = some o →
      g.computeExecutionOrder.get? j = some t →
      o.id = l.origin_id → t.id = l.target_id → o.order < t.order) ∧
    (∀ a b : Int, Relation.TransGen (edgeRel g) a b → ∀ i j o t,
      g.computeExecutionOrder.get? i = some o →
      g.computeExecutionOrder.get? j = some t →
      o.id = a → t.id = b → o.order < t.order) := by
  have hrep : NodeRep g := ⟨hwf.nodup_node_ids, hwf.byId_complete, hwf.byId_sound⟩
  obtain ⟨hwfInv, hpInv⟩ := kahnFinal_wf g hwf
  have hM := kahnFinal_M_nil g hwf hacyc
  have hSnil := kahnFinal_S_nil g
  have hord : g.computeExecutionOrder = assignOrdersFrom 0 (kahnFinal g).L := by
    show assignOrdersFrom 0 ((kahnFinal g).L ++ sortById (kahnFinal g).M) = _
    rw [hM]
    show assignOrdersFrom 0 ((kahnFinal g).L ++ []) = _
    rw [List.append_nil]
  have hLids : (idsOf (kahnFinal g).L).Nodup := by
    have h0 := hpInv.nodupIds
    rw [hSnil, List.append_nil] at h0
    exact h0
  have horder : ∀ j t, g.computeExecutionOrder.get? j = some t → t.order = (j : Int) := by
    intro j t h
    rw [hord, assignOrdersFrom_get?] at h
    obtain ⟨t0, _, hteq⟩ := Option.map_eq_some'.1 h
    rw [← hteq]
    show ((0 + j : Nat) : Int) = (j : Int)
    simp
  have hcore : ∀ l ∈ g.links, ∀ i j o t,
      g.computeExecutionOrder.get? i = some o →
      g.computeExecutionOrder.get? j = some t →
      o.id = l.origin_id → t.id = l.target_id → i < j := by
    intro l hl i j o t hi hj ho ht
    rw [hord, assignOrdersFrom_get?] at hi hj
    obtain ⟨o0, ho0, hoeq⟩ := Option.map_eq_some'.1 hi
    obtain ⟨t0, ht0, hteq⟩ := Option.map_eq_some'.1 hj
    have ho0id : o0.id = l.origin_id := by
      rw [← hoeq] at ho
      exact ho
    have ht0id : t0.id = l.target_id := by
      rw [← hteq] at ht
      exact ht
    obtain ⟨i2, o2, hij, hgi2, ho2⟩ := hwfInv.ordered l hl j t0 ht0 ht0id
    have hmapi : (idsOf (kahnFinal g).L).get? i = some l.origin_id := by
      show ((kahnFinal g).L.map (fun n => n.id)).get? i = some l.origin_id
      rw [List.get?_map, ho0]
      rw [Option.map_some', ho0id]
    have hmapi2 : (idsOf (kahnFinal g).L).get? i2 = some l.origin_id := by
      show ((kahnFinal g).L.map (fun n => n.id)).get? i2 = some l.origin_id
      rw [List.get?_map, hgi2]
      rw [Option.map_some', ho2]
    have hii2 : i = i2 :=
      get?_inj_of_nodup (idsOf (kahnFinal g).L) hLids i i2 l.origin_id hmapi hmapi2
    omega
  have hperm2 : ((kahnFinal g).L.map (fun n => n.id)).Perm (g._nodes.map (fun n => n.id)) := by
    have hp0 := kahnFinal_perm g hrep
    rw [hM] at hp0
    have hp1 : ((kahnFinal g).L ++ ([] : List LGNode)).Perm g._nodes := by
      show ((kahnFinal g).L ++ sortById []).Perm g._nodes
      exact hp0
    rw [List.append_nil] at hp1
    exact hp1.map (fun n => n.id)
  have hlink : ∀ l ∈ g.links, ∀ i j o t,
      g.computeExecutionOrder.get? i = some o →
      g.computeExecutionOrder.get? j = some t →
      o.id = l.origin_id → t.id = l.target_id → o.order < t.order := by
    intro l hl i j o t hi hj ho ht
    have hij := hcore l hl i j o t hi hj ho ht
    rw [horder i o hi, horder j t hj]
    exact_mod_cast hij
  refine ⟨horder, hlink, ?_⟩
  intro a b htg
  induction htg with
  | single hstep =>
    obtain ⟨l, hl, hoa, htb⟩ := hstep
    intro i j o t hi hj ho ht
    exact hlink l hl i j o t hi hj (ho.trans hoa.symm) (ht.trans htb.symm)
  | tail hab hstep ih =>
    intro i j o t hi hj ho ht
    obtain ⟨l, hl, hoc, htb⟩ := hstep
    obtain ⟨oc, hocn, hocid, _⟩ := hwf.origin_listed l hl
    have hocL : oc.id ∈ (kahnFinal g).L.map (fun n => n.id) :=
      hperm2.mem_iff.2 (List.mem_map.2 ⟨oc, hocn, rfl⟩)
    obtain ⟨m, hmL, hmid⟩ := List.mem_map.1 hocL
    obtain ⟨k, hk⟩ := List.get?_of_mem hmL
    have hordk : g.computeExecutionOrder.get? k =
        some { m with order := ((0 + k : Nat) : Int) } := by
      rw [hord, assignOrdersFrom_get?, hk]
      rfl
    have h1 := ih i k o { m with order := ((0 + k : Nat) : Int) } hi hordk ho
      (by show m.id = _; rw [hmid, hocid, hoc])
    have h2 := hlink l hl k j { m with order := ((0 + k : Nat) : Int) } t hordk hj
      (by show m.id = l.origin_id; rw [hmid, hocid]) (ht.trans htb.symm)
    exact lt_trans h1 h2

/-- Source node 0 of the 3-node topological scenario: no inputs, one
output slot feeding link 1. -/
def topoNode0 : LGNode :=
  { id := 0, order := 0, title := "s0", inputs := [], outputs := [[1]]
    ignore_remove := false, onExecute := none }

/-- Source node 1 of the 3-node topological scenario: no inputs, one
output slot feeding link 2. -/
def topoNode1 : LGNode :=
  { id := 1, order := 0, title := "s1", inputs := [], outputs := [[2]]
    ignore_remove := false, onExecute := none }

/-- Sink node 2 of the 3-node topological scenario: two connected inputs
fed by links 1 and 2. -/
def topoNode2 : LGNode :=
  { id := 2, order := 0, title := "t", inputs := [some 1, some 2], outputs := []
    ignore_remove := false, onExecute := none }

/-- Link 1: node 0 output slot 0 → node 2 input slot 0. -/
def topoLink1 : LGLink :=
  { id := 1, origin_id := 0, origin_slot := 0, target_id := 2, target_slot := 0 }

/-- Link 2: node 1 output slot 0 → node 2 input slot 1. -/
def topoLink2 : LGLink :=
  { id := 2, origin_id := 1, origin_slot := 0, target_id := 2, target_slot := 1 }

/-- The acyclic 3-node scenario graph: nodes 0 and 1 each feed one
connected input of node 2. -/
def topoGraph : LGraph :=
  { LGraph.empty with
      _nodes := [topoNode0, topoNode1, topoNode2]
      _nodes_by_id := [(0, topoNode0), (1, topoNode1), (2, topoNode2)]
      links := [topoLink1, topoLink2]
      last_node_id := 3
      last_link_id := 2 }

/-- Witness for C1 at the 3-node acyclic graph: along link 1 the origin
node 0 lands at position 0 with order 0 and the target node 2 at
position 2 with order 2, the origin's order strictly smaller. -/
theorem computeExecutionOrder_topological_witness :
    topoLink1 ∈ topoGraph.links ∧
    topoGraph.computeExecutionOrder.get? 0 = some topoNode0 ∧
    topoGraph.computeExecutionOrder.get? 2 = some { topoNode2 with order := 2 } ∧
    topoNode0.id = topoLink1.origin_id ∧
    ({ topoNode2 with order := 2 } : LGNode).id = topoLink1.target_id ∧
    topoNode0.order < ({ topoNode2 with order := 2 } : LGNode).order :=
  ⟨by decide, by decide, by decide, by decide, by decide,
    (computeExecutionOrder_topological topoGraph
        (by constructor <;> decide)
        (acyclicGraph_of_rank topoGraph (fun i => i.toNat) (by decide))).2.1
      topoLink1 (by decide) 0 2 topoNode0 { topoNode2 with order := 2 }
      (by decide) (by decide) (by decide) (by decide)⟩

/-! ## Id bookkeeping of add and remove (claim C7) -/

/-- Propagating an order never changes a node's id. -/
theorem applyOrderFrom_id (ord : List LGNode) (n : LGNode) :
    (applyOrderFrom ord n).id = n.id := by
  unfold applyOrderFrom
  cases h : ord.find? (fun m => m.id == n.id) with
  | none => rfl
  | some m => rfl

/-- Mapping an id-preserving function leaves the id list unchanged. -/
theorem ids_map_of_preserve : ∀ (l : List LGNode) (f : LGNode → LGNode),
    (∀ n, (f n).id = n.id) → idsOf (l.map f) = idsOf l := by
  intro l f hf
  induction l with
  | nil => rfl
  | cons a rest ih =>
    show ((a :: rest).map f).map (fun n => n.id) = (a :: rest).map (fun n => n.id)
    rw [List.map_cons, List.map_cons, List.map_cons, hf a]
    congr 1

/-- Recomputing the execution order keeps every node's id. -/
theorem updateExecutionOrder_mem_ids (g : LGraph) :
    ∀ m ∈ g.updateExecutionOrder._nodes, ∃ n0 ∈ g._nodes, m.id = n0.id := by
  intro m hm
  have hm2 : m ∈ g._nodes.map (applyOrderFrom g.computeExecutionOrder) := hm
  obtain ⟨n0, hn0, heq⟩ := List.mem_map.1 hm2
  exact ⟨n0, hn0, by rw [← heq, applyOrderFrom_id]⟩

/-- An id-preserving in-place node mutation leaves the id list unchanged. -/
theorem updateNodeObj_ids (g : LGraph) (nid : Int) (f : LGNode → LGNode)
    (hf : ∀ n, (f n).id = n.id) :
    idsOf (updateNodeObj g nid f)._nodes = idsOf g._nodes := by
  show idsOf (g._nodes.map (fun n => if n.id == nid then f n else n)) = idsOf g._nodes
  apply ids_map_of_preserve
  intro n
  by_cases h : (n.id == nid) = true
  · rw [if_pos h]
    exact hf n
  · rw [if_neg h]

/-- A fold whose every step preserves last_node_id and the id list
preserves both. -/
theorem foldl_pres_ids {β : Type} (f : LGraph → β → LGraph)
    (hf : ∀ (g : LGraph) (b : β),
      (f g b).last_node_id = g.last_node_id ∧ idsOf (f g b)._nodes = idsOf g._nodes) :
    ∀ (l : List β) (g : LGraph),
      (l.foldl f g).last_node_id = g.last_node_id ∧
      idsOf (l.foldl f g)._nodes = idsOf g._nodes := by
  intro l
  induction l with
  | nil => intro g; exact ⟨rfl, rfl⟩
  | cons b rest ih =>
    intro g
    rw [List.foldl_cons]
    obtain ⟨h1, h2⟩ := ih (f g b)
    obtain ⟨h3, h4⟩ := hf g b
    exact ⟨h1.trans h3, h2.trans h4⟩

/-- Disconnecting an input slot neither assigns ids nor changes any
node's id. -/
theorem disconnectInput_pres (g : LGraph) (nid : Int) (i : Nat) :
    (disconnectInput g nid i).last_node_id = g.last_node_id ∧
    idsOf (disconnectInput g nid i)._nodes = idsOf g._nodes := by
  unfold disconnectInput
  cases hf : g._nodes.find? (fun n => n.id == nid) with
  | none => exact ⟨rfl, rfl⟩
  | some n =>
    dsimp only
    cases hget : n.inputs.get? i with
    | none => exact ⟨rfl, rfl⟩
    | some o =>
      cases o with
      | none => exact ⟨rfl, rfl⟩
      | some lid =>
        dsimp only
        cases hl : linkLookup g.links lid with
        | none =>
          exact ⟨rfl, updateNodeObj_ids g nid
            (fun m => { m with inputs := m.inputs.set i none }) (fun m => rfl)⟩
        | some l =>
          dsimp only
          refine ⟨rfl, ?_⟩
          rw [updateNodeObj_ids _ l.origin_id
            (fun m => { m with outputs := m.outputs.modify (fun s => s.filter (fun x => x != lid)) l.origin_slot })
            (fun m => rfl)]
          rw [updateNodeObj_ids _ nid
            (fun m => { m with inputs := m.inputs.set i none }) (fun m => rfl)]
          rfl

/-- Disconnecting an output slot neither assigns ids nor changes any
node's id. -/
theorem disconnectOutput_pres (g : LGraph) (nid : Int) (i : Nat) :
    (disconnectOutput g nid i).last_node_id = g.last_node_id ∧
    idsOf (disconnectOutput g nid i)._nodes = idsOf g._nodes := by
  unfold disconnectOutput
  cases hf : g._nodes.find? (fun n => n.id == nid) with
  | none => exact ⟨rfl, rfl⟩
  | some n =>
    dsimp only
    cases hget : n.outputs.get? i with
    | none => exact ⟨rfl, rfl⟩
    | some lids =>
      dsimp only
      have hfold := foldl_pres_ids
        (fun g lid =>
          match linkLookup g.links lid with
          | some l =>
            let g := removeLinkById g lid
            updateNodeObj g l.target_id
              (fun m => { m with inputs := m.inputs.set l.target_slot none })
          | none => g)
        (by
          intro g2 lid
          dsimp only
          cases hl : linkLookup g2.links lid with
          | none => exact ⟨rfl, rfl⟩
          | some l =>
            dsimp only
            refine ⟨rfl, ?_⟩
            rw [updateNodeObj_ids _ l.target_id
              (fun m => { m with inputs := m.inputs.set l.target_slot none })
              (fun m => rfl)]
            rfl)
        lids g
      refine ⟨hfold.1, ?_⟩
      rw [updateNodeObj_ids _ nid
        (fun m => { m with outputs := m.outputs.set i [] }) (fun m => rfl)]
      exact hfold.2

/-- The closing stages of remove (set the shared object's id to -1, splice
out of both containers, recompute the order) keep last_node_id and send
every surviving node's id into the original id list. -/
theorem removeFinish_pres (h : LGraph) (nid : Int) :
    (let gC := updateNodeObj h nid (fun m => { m with id := -1 })
     let gD := { gC with _nodes := gC._nodes.filter (fun m => m.id != -1) }
     let gE := { gD with _nodes_by_id := gD._nodes_by_id.filter (fun p => p.1 != -1) }
     gE.updateExecutionOrder).last_node_id = h.last_node_id ∧
    ∀ m ∈ (let gC := updateNodeObj h nid (fun m => { m with id := -1 })
     let gD := { gC with _nodes := gC._nodes.filter (fun m => m.id != -1) }
     let gE := { gD with _nodes_by_id := gD._nodes_by_id.filter (fun p => p.1 != -1) }
     gE.updateExecutionOrder)._nodes, m.id ∈ idsOf h._nodes := by
  refine ⟨rfl, ?_⟩
  intro m hm
  obtain ⟨n5, hn5, hid5⟩ := updateExecutionOrder_mem_ids _ m hm
  have hn5b : n5 ∈ (updateNodeObj h nid (fun m => { m with id := -1 }))._nodes.filter
      (fun m => m.id != -1) := hn5
  obtain ⟨hn5c, hpred⟩ := List.mem_filter.1 hn5b
  have hne2 : n5.id ≠ -1 := by simpa using hpred
  have hn5d : n5 ∈ h._nodes.map (fun x => if x.id == nid then { x with id := -1 } else x) := hn5c
  obtain ⟨n3, hn3, heq3⟩ := List.mem_map.1 hn5d
  have hid53 : n5.id = n3.id := by
    by_cases hc : (n3.id == nid) = true
    · exfalso
      apply hne2
      rw [← heq3, if_pos hc]
    · rw [← heq3, if_neg hc]
  rw [hid5, hid53]
  exact List.mem_map.2 ⟨n3, hn3, rfl⟩

/-- remove never assigns an id: last_node_id is unchanged and every
surviving node keeps an id the graph already held. -/
theorem remove_pres (g : LGraph) (node : LGNode) :
    (g.remove node).last_node_id = g.last_node_id ∧
    ∀ m ∈ (g.remove node)._nodes, m.id ∈ idsOf g._nodes := by
  unfold LGraph.remove
  by_cases h1 : (byIdLookup g._nodes_by_id node.id).isNone
  · rw [if_pos h1]
    exact ⟨rfl, fun m hm => List.mem_map.2 ⟨m, hm, rfl⟩⟩
  · rw [if_neg h1]
    by_cases h2 : node.ignore_remove
    · rw [if_pos h2]
      exact ⟨rfl, fun m hm => List.mem_map.2 ⟨m, hm, rfl⟩⟩
    · rw [if_neg h2]
      dsimp only
      have hIn := foldl_pres_ids
        (fun g i =>
          match g._nodes.find? (fun n => n.id == node.id) with
          | some n =>
            match n.inputs.get? i with
            | some (some _) => disconnectInput g node.id i
            | _ => g
          | none => g)
        (by
          intro g2 i
          dsimp only
          cases hf : g2._nodes.find? (fun n => n.id == node.id) with
          | none => exact ⟨rfl, rfl⟩
          | some n =>
            dsimp only
            cases hget : n.inputs.get? i with
            | none => exact ⟨rfl, rfl⟩
            | some o =>
              cases o with
              | none => exact ⟨rfl, rfl⟩
              | some lid => exact disconnectInput_pres g2 node.id i)
        (List.range node.inputs.length) g
      have hOut := foldl_pres_ids
        (fun g i =>
          match g._nodes.find? (fun n => n.id == node.id) with
          | some n =>
            match n.outputs.get? i with
            | some (_ :: _) => disconnectOutput g node.id i
            | _ => g
          | none => g)
        (by
          intro g2 i
          dsimp only
          cases hf : g2._nodes.find? (fun n => n.id == node.id) with
          | none => exact ⟨rfl, rfl⟩
          | some n =>
            dsimp only
            cases hget : n.outputs.get? i with
            | none => exact ⟨rfl, rfl⟩
            | some lids =>
              cases lids with
              | nil => exact ⟨rfl, rfl⟩
              | cons x rest => exact disconnectOutput_pres g2 node.id i)
        (List.range node.outputs.length)
        ((List.range node.inputs.length).foldl
          (fun g i =>
            match g._nodes.find? (fun n => n.id == node.id) with
            | some n =>
              match n.inputs.get? i with
              | some (some _) => disconnectInput g node.id i
              | _ => g
            | none => g)
          g)
      refine ⟨?_, ?_⟩
      · exact (removeFinish_pres _ node.id).1.trans (hOut.1.trans hIn.1)
      · intro m hm
        have h3 := (removeFinish_pres _ node.id).2 m hm
        rw [hOut.2, hIn.2] at h3
        exact h3

/-- Adding a detached node (id -1, the state applyOp feeds add) either
throws on the full graph, leaving it untouched, or assigns exactly
last_node_id, increments it, and extends the live ids by the assigned
one. -/
theorem add_detached (cfg : LiteGraphConfig) (g : LGraph) (n : LGNode) (skip : Bool) :
    ((g.add cfg { n with id := -1 } skip).outcome = AddOutcome.thrown ∧
      (g.add cfg { n with id := -1 } skip).g = g) ∨
    ((g.add cfg { n with id := -1 } skip).outcome = AddOutcome.added ∧
      (g.add cfg { n with id := -1 } skip).node.id = g.last_node_id ∧
      (g.add cfg { n with id := -1 } skip).g.last_node_id = g.last_node_id + 1 ∧
      ∀ m ∈ (g.add cfg { n with id := -1 } skip).g._nodes,
        m.id ∈ idsOf g._nodes ∨ m.id = g.last_node_id) := by
  unfold LGraph.add
  have hc1 : (({ n with id := -1 } : LGNode).id != -1 &&
      (byIdLookup g._nodes_by_id ({ n with id := -1 } : LGNode).id).isSome) = false := by
    show ((-1 : Int) != -1 && (byIdLookup g._nodes_by_id (-1 : Int)).isSome) = false
    simp
  rw [hc1, if_neg (by simp : ¬ (false = true))]
  by_cases hcap : g._nodes.length ≥ cfg.MAX_NUMBER_OF_NODES
  · rw [if_pos hcap]
    left
    exact ⟨rfl, rfl⟩
  · rw [if_neg hcap]
    have hc2 : (({ n with id := -1 } : LGNode).id == -1) = true := by
      show ((-1 : Int) == -1) = true
      simp
    rw [hc2, if_pos rfl]
    dsimp only
    cases hs : skip with
    | true =>
      rw [if_pos rfl]
      right
      refine ⟨rfl, rfl, rfl, ?_⟩
      intro m hm
      have hm2 : m ∈ g._nodes ++ [{ { n with id := -1 } with id := g.last_node_id }] := hm
      rcases List.mem_append.1 hm2 with h1 | h2
      · exact Or.inl (List.mem_map.2 ⟨m, h1, rfl⟩)
      · right
        rw [List.mem_singleton.1 h2]
    | false =>
      rw [if_neg (by simp : ¬ (false = true))]
      right
      refine ⟨rfl, rfl, rfl, ?_⟩
      intro m hm
      obtain ⟨n0, hn0, hid0⟩ := updateExecutionOrder_mem_ids _ m hm
      have hn02 : n0 ∈ g._nodes ++ [{ { n with id := -1 } with id := g.last_node_id }] := hn0
      rcases List.mem_append.1 hn02 with h1 | h2
      · exact Or.inl (by rw [hid0]; exact List.mem_map.2 ⟨n0, h1, rfl⟩)
      · right
        rw [hid0, List.mem_singleton.1 h2]

/-- The invariant along an add/remove trace: the assigned ids grow
strictly in order of assignment, all sit below the id counter, and every
live node carries an assigned id. -/
structure TraceInv (st : TraceState) : Prop where
  chain : List.Pairwise (fun a b => a < b) st.assigned
  bound : ∀ a ∈ st.assigned, a < st.g.last_node_id
  live : ∀ n ∈ st.g._nodes, n.id ∈ st.assigned

/-- Every operation preserves the trace invariant. -/
theorem applyOp_traceInv (cfg : LiteGraphConfig) (st : TraceState) (op : GraphOp)
    (h : TraceInv st) : TraceInv (applyOp cfg st op) := by
  cases op with
  | addNode n skip =>
    unfold applyOp
    dsimp only
    rcases add_detached cfg st.g n skip with ⟨hout, hg⟩ | ⟨hout, hnid, hlast, hnodes⟩
    · rw [hout]
      dsimp only
      refine ⟨h.chain, ?_, ?_⟩
      · intro a ha
        show a < (st.g.add cfg { n with id := -1 } skip).g.last_node_id
        rw [hg]
        exact lt_of_lt_of_le (h.bound a ha) (le_refl _)
      · intro m hm
        apply h.live m
        show m ∈ st.g._nodes
        rw [← hg]
        exact hm
    · rw [hout]
      dsimp only
      rw [hnid]
      refine ⟨?_, ?_, ?_⟩
      · apply List.pairwise_append.2
        refine ⟨h.chain, by simp, ?_⟩
        intro a ha b hb
        rw [List.mem_singleton.1 hb]
        exact h.bound a ha
      · intro a ha
        show a < (st.g.add cfg { n with id := -1 } skip).g.last_node_id
        rw [hlast]
        rcases List.mem_append.1 ha with h1 | h2
        · have := h.bound a h1
          omega
        · rw [List.mem_singleton.1 h2]
          omega
      · intro m hm
        rcases hnodes m hm with h1 | h2
        · obtain ⟨n0, hn0, hid0⟩ := List.mem_map.1 h1
          have := h.live n0 hn0
          rw [hid0] at this
          exact List.mem_append.2 (Or.inl this)
        · rw [h2]
          exact List.mem_append.2 (Or.inr (List.mem_singleton.2 rfl))
  | removeNode i =>
    unfold applyOp
    dsimp only
    cases hfind : st.g._nodes.find? (fun n => n.id == i) with
    | none => exact h
    | some n =>
      dsimp only
      refine ⟨h.chain, ?_, ?_⟩
      · intro a ha
        show a < (st.g.remove n).last_node_id
        rw [(remove_pres st.g n).1]
        exact h.bound a ha
      · intro m hm
        have h2 := (remove_pres st.g n).2 m hm
        obtain ⟨n0, hn0, hid0⟩ := List.mem_map.1 h2
        have := h.live n0 hn0
        rw [hid0] at this
        exact this

/-- C7: after any sequence of add and remove operations from a fresh
graph, the chronological list of ids the graph assigned is strictly
increasing — so no two ids ever assigned coincide (the list is duplicate
free) — and every live node carries one of the assigned ids. -/
theorem add_remove_id_monotonic (cfg : LiteGraphConfig) (ops : List GraphOp) :
    List.Pairwise (fun a b => a < b) (runOps cfg ops).assigned ∧
    (runOps cfg ops).assigned.Nodup ∧
    ∀ n ∈ (runOps cfg ops).g._nodes, n.id ∈ (runOps cfg ops).assigned := by
  have hfold : ∀ (l : List GraphOp) (st : TraceState), TraceInv st →
      TraceInv (l.foldl (applyOp cfg) st) := by
    intro l
    induction l with
    | nil => intro st h; exact h
    | cons op rest ih =>
      intro st h
      rw [List.foldl_cons]
      exact ih _ (applyOp_traceInv cfg st op h)
  have h0 : TraceInv { g := LGraph.empty, assigned := [] } := by
    refine ⟨List.Pairwise.nil, ?_, ?_⟩
    · intro a ha
      cases ha
    · intro m hm
      exfalso
      have hm2 : m ∈ ([] : List LGNode) := hm
      exact List.not_mem_nil m hm2
  have hinv : TraceInv (runOps cfg ops) := hfold ops _ h0
  exact ⟨hinv.chain, hinv.chain.imp (fun hab => ne_of_lt hab), hinv.live⟩
